import Mathlib

/-!
# Verification of the JSON-Pointer flatten/unflatten codec

A shallow embedding of the pure codec in `src/utils.py`:
`flatten_to_json_pointers`, `unflatten_from_json_pointers`,
`_parse_json_pointer`, `_create_nested_structure`, `_set_nested_value`.

Python strings are modelled as `List Char` (`PyStr`); Python dicts are
modelled as insertion-ordered association lists (new keys are appended at
the end; assigning to an existing key overwrites in place), which is
exactly Python's dict iteration/update semantics for string keys.
`str.isdigit` is modelled as "non-empty and every character is an ASCII
decimal digit" (non-ASCII digit characters are outside the model).
Exceptions are modelled with `Except`: the only exception the codec can
raise on structurally well-formed inputs is a `TypeError` from
`_set_nested_value` descending through a primitive, so errors are
`PyErr.typeError`.
-/

set_option autoImplicit false

namespace MealPlanner

/-- Python strings, modelled as lists of characters. -/
abbrev PyStr := List Char

/-- Python `str.isdigit` (ASCII fragment): non-empty and all decimal digits. -/
def pyIsDigit (s : PyStr) : Bool :=
  !s.isEmpty && s.all Char.isDigit

/-- Python `int(s)` for digit strings: decimal value of the digits. -/
def toNatDigits (s : PyStr) : Nat :=
  s.foldl (fun a c => 10 * a + (c.toNat - 48)) 0

/-- The decimal digit characters. -/
def digitChar : Nat → Char
  | 0 => '0'
  | 1 => '1'
  | 2 => '2'
  | 3 => '3'
  | 4 => '4'
  | 5 => '5'
  | 6 => '6'
  | 7 => '7'
  | 8 => '8'
  | 9 => '9'
  | _ => '*'

/-- Fuel-indexed decimal rendering, little helper for `natToDigits`. -/
def natToDigitsAux : Nat → Nat → List Char
  | 0, _ => []
  | fuel + 1, n =>
    if n < 10 then [digitChar n]
    else natToDigitsAux fuel (n / 10) ++ [digitChar (n % 10)]

/-- Python `str(n)` for a natural number: canonical decimal rendering. -/
def natToDigits (n : Nat) : List Char :=
  natToDigitsAux (n + 1) n

/-- Python `s.replace("~", "~0")` (single-character pattern, so per-char). -/
def replaceTildeEsc : List Char → List Char
  | [] => []
  | c :: rest =>
    if c = '~' then '~' :: '0' :: replaceTildeEsc rest
    else c :: replaceTildeEsc rest

/-- Python `s.replace("/", "~1")` (single-character pattern, so per-char). -/
def replaceSlashEsc : List Char → List Char
  | [] => []
  | c :: rest =>
    if c = '/' then '~' :: '1' :: replaceSlashEsc rest
    else c :: replaceSlashEsc rest

/-- Key escaping from `flatten_to_json_pointers`:
`key.replace("~", "~0").replace("/", "~1")`. -/
def escapeSegment (k : PyStr) : PyStr :=
  replaceSlashEsc (replaceTildeEsc k)

/-- Python `s.replace("~1", "/")`: left-to-right, non-overlapping. -/
def replaceT1 : List Char → List Char
  | [] => []
  | [c] => [c]
  | c1 :: c2 :: rest =>
    if c1 = '~' ∧ c2 = '1' then '/' :: replaceT1 rest
    else c1 :: replaceT1 (c2 :: rest)

/-- Python `s.replace("~0", "~")`: left-to-right, non-overlapping. -/
def replaceT0 : List Char → List Char
  | [] => []
  | [c] => [c]
  | c1 :: c2 :: rest =>
    if c1 = '~' ∧ c2 = '0' then '~' :: replaceT0 rest
    else c1 :: replaceT0 (c2 :: rest)

/-- Segment unescaping from `_parse_json_pointer`:
`segment.replace("~1", "/").replace("~0", "~")`. -/
def unescapeSegment (s : PyStr) : PyStr :=
  replaceT0 (replaceT1 s)

/-- Python `path.split("/")`: always returns at least one chunk; a
separator at either end or doubled yields empty chunks. -/
def splitOnSlash : List Char → List PyStr
  | [] => [[]]
  | c :: rest =>
    if c = '/' then [] :: splitOnSlash rest
    else
      match splitOnSlash rest with
      | s :: ss => (c :: s) :: ss
      | [] => [[c]]

/-- `_parse_json_pointer`: empty or not-starting-with-`/` gives `[]`;
the bare root pointer `/` gives `[]`; otherwise drop the leading slash,
split on `/` and unescape every segment. -/
def parse_json_pointer (pointer : PyStr) : List PyStr :=
  match pointer with
  | [] => []
  | c :: path =>
    if c = '/' then
      match path with
      | [] => []
      | _ :: _ => (splitOnSlash path).map unescapeSegment
    else []

/-- Nested JSON-like values: the data model the codec operates on.
Leaves are strings, integers, booleans and null; containers are
insertion-ordered mappings (association lists) and sequences. -/
inductive JValue where
  | str (s : PyStr)
  | num (n : Int)
  | bool (b : Bool)
  | null
  | arr (items : List JValue)
  | obj (fields : List (PyStr × JValue))
  deriving Repr, Inhabited

/-- The one exception `_set_nested_value` can raise: descending through an
already-assigned primitive leaf is a Python `TypeError`. -/
inductive PyErr where
  | typeError
  deriving Repr, DecidableEq

/-- Containers are dicts and lists; everything else is a primitive leaf. -/
def isLeafB : JValue → Bool
  | .arr _ => false
  | .obj _ => false
  | _ => true

/-- Python's `x is None` test against the `None` placeholder. -/
def JValue.isNull : JValue → Bool
  | .null => true
  | _ => false

/-- First value bound to a key in an association list (Python `obj[k]`
read / `k in obj` test). -/
def lookupField : List (PyStr × JValue) → PyStr → Option JValue
  | [], _ => none
  | (k, v) :: rest, key => if k = key then some v else lookupField rest key

/-- Python dict assignment `obj[key] = v`: overwrite in place if the key
is present, else append at the end (insertion order). -/
def setField : List (PyStr × JValue) → PyStr → JValue → List (PyStr × JValue)
  | [], key, v => [(key, v)]
  | (k, w) :: rest, key, v =>
    if k = key then (k, v) :: rest else (k, w) :: setField rest key v

/-- Python `result.update(nested)`: assign every entry of `b` into `a`. -/
def dictUpdate (a b : List (PyStr × JValue)) : List (PyStr × JValue) :=
  b.foldl (fun acc kv => setField acc kv.1 kv.2) a

/-- `_create_nested_structure`: build a fresh spine for a path, choosing
list vs dict by whether the leading segment is a digit string; skipped
list indices here are padded with `None`. -/
def create_nested_structure : List PyStr → JValue → JValue
  | [], value => value
  | first :: rest, value =>
    if pyIsDigit first then
      let index := toNatDigits first
      match rest with
      | [] => .arr (List.replicate index .null ++ [value])
      | _ :: _ =>
        .arr ((List.replicate (index + 1) (JValue.null)).set index
          (create_nested_structure rest value))
    else
      match rest with
      | [] => .obj [(first, value)]
      | _ :: _ => .obj [(first, create_nested_structure rest value)]

/-- `_set_nested_value`, with the in-place mutation made explicit: the
updated object is returned.  On a list, a non-digit segment is silently
ignored, and extending to index `i` appends `{}`/`[]` placeholders (chosen
by the next segment); on a dict, a missing key is first bound to a
`{}`/`[]` placeholder; on a primitive, Python raises `TypeError`. -/
def set_nested_value : JValue → List PyStr → JValue → Except PyErr JValue
  | o, [], _ => .ok o
  | .arr xs, first :: rest, value =>
    if pyIsDigit first then
      let index := toNatDigits first
      let filler : JValue :=
        match rest with
        | [] => .arr []
        | r0 :: _ => if pyIsDigit r0 then .arr [] else .obj []
      let xs1 := xs ++ List.replicate (index + 1 - xs.length) filler
      match rest with
      | [] => .ok (.arr (xs1.set index value))
      | r0 :: rrest =>
        let child := xs1.getD index .null
        let child1 :=
          if child.isNull then (if pyIsDigit r0 then JValue.arr [] else .obj [])
          else child
        (set_nested_value child1 (r0 :: rrest) value).map
          (fun c2 => .arr (xs1.set index c2))
    else .ok (.arr xs)
  | .obj fields, first :: rest, value =>
    match rest with
    | [] => .ok (.obj (setField fields first value))
    | r0 :: _ =>
      match lookupField fields first with
      | some child =>
        (set_nested_value child rest value).map
          (fun c2 => .obj (setField fields first c2))
      | none =>
        let filler : JValue := if pyIsDigit r0 then .arr [] else .obj []
        (set_nested_value filler rest value).map
          (fun c2 => .obj (fields ++ [(first, c2)]))
  | _, _ :: _, _ => .error .typeError

mutual

/-- `flatten_to_json_pointers`: walk the nested structure, accumulating a
flat pointer-keyed dict.  Dict and list nodes are traversed by the two
loop helpers below (the Python `for` loops over `data.items()` /
`enumerate(data)`), primitives at the top level contribute nothing. -/
def flatten_to_json_pointers : JValue → PyStr → List (PyStr × JValue)
  | .obj fields, parentPath => flattenFieldsLoop fields parentPath []
  | .arr items, parentPath => flattenItemsLoop items 0 parentPath []
  | _, _ => []

/-- The dict loop of `flatten_to_json_pointers`: escape the key, recurse
into container values (`result.update(...)`), store leaves directly. -/
def flattenFieldsLoop :
    List (PyStr × JValue) → PyStr → List (PyStr × JValue) → List (PyStr × JValue)
  | [], _, result => result
  | (key, value) :: rest, parentPath, result =>
    let currentPath := parentPath ++ escapeSegment key
    match value with
    | .obj _ =>
      flattenFieldsLoop rest parentPath
        (dictUpdate result (flatten_to_json_pointers value (currentPath ++ ['/'])))
    | .arr _ =>
      flattenFieldsLoop rest parentPath
        (dictUpdate result (flatten_to_json_pointers value (currentPath ++ ['/'])))
    | _ => flattenFieldsLoop rest parentPath (setField result currentPath value)

/-- The list loop of `flatten_to_json_pointers`: the decimal index plays
the role of the escaped key (indices need no escaping). -/
def flattenItemsLoop :
    List JValue → Nat → PyStr → List (PyStr × JValue) → List (PyStr × JValue)
  | [], _, _, result => result
  | item :: rest, index, parentPath, result =>
    let currentPath := parentPath ++ natToDigits index
    match item with
    | .obj _ =>
      flattenItemsLoop rest (index + 1) parentPath
        (dictUpdate result (flatten_to_json_pointers item (currentPath ++ ['/'])))
    | .arr _ =>
      flattenItemsLoop rest (index + 1) parentPath
        (dictUpdate result (flatten_to_json_pointers item (currentPath ++ ['/'])))
    | _ => flattenItemsLoop rest (index + 1) parentPath (setField result currentPath item)

end

/-- The parsed form `root_paths` of the flat dict: each pointer replaced
by its parsed segment list, values carried along (`flat_dict[pointer]`). -/
def parsedEntries (flat : List (PyStr × JValue)) : List (List PyStr × JValue) :=
  flat.map (fun kv => (parse_json_pointer kv.1, kv.2))

/-- `root_segments`: the set of first segments of all non-empty paths
(a Python set, modelled as a deduplicated list). -/
def rootSegments (entries : List (List PyStr × JValue)) : List PyStr :=
  (entries.filterMap (fun e => e.1.head?)).dedup

/-- `numeric_segments`: the set of integer values of the digit-string
root segments. -/
def numericSegments (rs : List PyStr) : List Nat :=
  ((rs.filter pyIsDigit).map toNatDigits).dedup

/-- The root-type test of `unflatten_from_json_pointers`:
`numeric_segments and len(numeric_segments) == len(root_segments)` —
the root is rebuilt as a list iff every root segment is a digit string
and distinct segments denote distinct integers. -/
def usesListRoot (flat : List (PyStr × JValue)) : Bool :=
  let rs := rootSegments (parsedEntries flat)
  let ns := numericSegments rs
  !ns.isEmpty && ns.length == rs.length

/-- `max(numeric_segments)` (0 when empty, which the code never queries). -/
def rootMaxIndex (flat : List (PyStr × JValue)) : Nat :=
  (numericSegments (rootSegments (parsedEntries flat))).foldl Nat.max 0

/-- The list-branch loop of `unflatten_from_json_pointers`: fill the
pre-allocated `[None] * (max_index + 1)` slots; a still-`None` slot gets a
fresh spine from `_create_nested_structure`, otherwise `_set_nested_value`
descends into the existing child. -/
def unflattenListLoop :
    List JValue → List (List PyStr × JValue) → Except PyErr (List JValue)
  | result, [] => .ok result
  | result, (parts, value) :: rest =>
    match parts with
    | [] => unflattenListLoop result rest
    | first :: remaining =>
      if pyIsDigit first then
        let index := toNatDigits first
        match remaining with
        | [] => unflattenListLoop (result.set index value) rest
        | _ :: _ =>
          if (result.getD index .null).isNull then
            unflattenListLoop
              (result.set index (create_nested_structure remaining value)) rest
          else
            match set_nested_value (result.getD index .null) remaining value with
            | .ok c => unflattenListLoop (result.set index c) rest
            | .error e => .error e
      else unflattenListLoop result rest

/-- The dict-branch loop of `unflatten_from_json_pointers`: an empty
segment list makes the whole call return that entry's value immediately
(the root-value case); otherwise `_set_nested_value` inserts the entry. -/
def unflattenDictLoop :
    JValue → List (List PyStr × JValue) → Except PyErr JValue
  | acc, [] => .ok acc
  | acc, (parts, value) :: rest =>
    match parts with
    | [] => .ok value
    | _ :: _ =>
      match set_nested_value acc parts value with
      | .ok acc2 => unflattenDictLoop acc2 rest
      | .error e => .error e

/-- `unflatten_from_json_pointers`: empty input gives `{}`; otherwise
parse all pointers, decide the root container type from the first
segments, and run the matching reconstruction loop.  (The `try/except`
around the numeric test can only fire for non-ASCII digit strings, which
are outside this model.) -/
def unflatten_from_json_pointers (flat : List (PyStr × JValue)) :
    Except PyErr JValue :=
  match flat with
  | [] => .ok (.obj [])
  | _ :: _ =>
    if usesListRoot flat then
      match unflattenListLoop (List.replicate (rootMaxIndex flat + 1) .null)
          (parsedEntries flat) with
      | .ok xs => .ok (.arr xs)
      | .error e => .error e
    else
      unflattenDictLoop (.obj []) (parsedEntries flat)

/-! ## Specification-side descriptions of the codec

`leafEntries` lists the leaves of a nested value together with their raw
(unescaped) segment paths, in traversal order; rendering those paths as
pointers describes what `flatten_to_json_pointers` produces.  The `wf`
predicates carve out the values on which the round-trip law holds. -/

mutual

/-- The leaves of a nested value with their raw segment paths, in the
order `flatten_to_json_pointers` visits them. -/
def leafEntries : JValue → List (List PyStr × JValue)
  | .obj fields => leafEntriesFields fields
  | .arr items => leafEntriesItems items 0
  | _ => []

/-- Leaves of a dict node, field by field. -/
def leafEntriesFields : List (PyStr × JValue) → List (List PyStr × JValue)
  | [] => []
  | (k, v) :: rest =>
    (match v with
     | .obj _ => (leafEntries v).map (fun e => (k :: e.1, e.2))
     | .arr _ => (leafEntries v).map (fun e => (k :: e.1, e.2))
     | _ => [([k], v)]) ++ leafEntriesFields rest

/-- Leaves of a list node, element by element from index `i`. -/
def leafEntriesItems : List JValue → Nat → List (List PyStr × JValue)
  | [], _ => []
  | item :: rest, i =>
    (match item with
     | .obj _ => (leafEntries item).map (fun e => (natToDigits i :: e.1, e.2))
     | .arr _ => (leafEntries item).map (fun e => (natToDigits i :: e.1, e.2))
     | _ => [([natToDigits i], item)]) ++ leafEntriesItems rest (i + 1)

end

/-- Render a non-empty segment path as the body of a JSON pointer:
escaped segments joined by `/`. -/
def joinSegments : List PyStr → PyStr
  | [] => []
  | [s] => escapeSegment s
  | s :: rest => escapeSegment s ++ '/' :: joinSegments rest

/-- The full pointer of a segment path rooted at prefix `pp` (for the
root call, `pp = "/"`). -/
def renderPointer (pp : PyStr) (segs : List PyStr) : PyStr :=
  pp ++ joinSegments segs

mutual

/-- Well-formedness for values sitting below the root.  Containers are
non-empty; dict keys are distinct; and the first key of a nested dict is
not a digit string (otherwise the unflattener would rebuild the dict as a
list, since container types are inferred from the first segment seen). -/
def wfInner : JValue → Bool
  | .obj [] => false
  | .obj ((k0, v0) :: rest) =>
    !pyIsDigit k0 && decide ((((k0, v0) :: rest).map Prod.fst).Nodup)
      && wfInner v0 && wfInnerFields rest
  | .arr [] => false
  | .arr (x :: rest) => wfInner x && wfInnerItems rest
  | _ => true

/-- `wfInner` over the values of a field list. -/
def wfInnerFields : List (PyStr × JValue) → Bool
  | [] => true
  | (_, v) :: rest => wfInner v && wfInnerFields rest

/-- `wfInner` over the elements of an item list. -/
def wfInnerItems : List JValue → Bool
  | [] => true
  | x :: rest => wfInner x && wfInnerItems rest

end

/-- Well-formedness at the root: a non-empty container, with distinct
keys if a dict; a root dict must have at least one non-digit key (else
the root would be rebuilt as a list) and no empty-string key bound to a
leaf (its pointer would be the bare root pointer `/`). -/
def wfRoot : JValue → Bool
  | .obj fields =>
    !fields.isEmpty
      && decide ((fields.map Prod.fst).Nodup)
      && fields.any (fun kv => !pyIsDigit kv.1)
      && fields.all (fun kv => !(kv.1.isEmpty && isLeafB kv.2))
      && wfInnerFields fields
  | .arr items => !items.isEmpty && wfInnerItems items
  | _ => false

/-- Rendering a leaf entry as a flat-dict pair under prefix `pp`. -/
def renderEntry (pp : PyStr) (e : List PyStr × JValue) : PyStr × JValue :=
  (pp ++ joinSegments e.1, e.2)

/-- Folding `_set_nested_value` over a list of (path, value) entries,
short-circuiting on the first `TypeError` — the body of the dict-branch
reconstruction loop once the root-value early return is out of the way. -/
def foldSet : JValue → List (List PyStr × JValue) → Except PyErr JValue
  | c, [] => .ok c
  | c, (segs, x) :: rest =>
    match set_nested_value c segs x with
    | .ok c2 => foldSet c2 rest
    | .error e => .error e

/-- The empty container of the same kind as `w`. -/
def emptyFor : JValue → JValue
  | .arr _ => .arr []
  | _ => .obj []

/-- Overwrite consecutive slots of `res` starting at index `i`. -/
def overwriteFrom : List JValue → Nat → List JValue → List JValue
  | res, _, [] => res
  | res, i, w :: ws => overwriteFrom (res.set i w) (i + 1) ws

/-- One iteration of the list-branch loop of
`unflatten_from_json_pointers`, as a function of the current result. -/
def listStep (result : List JValue) : List PyStr × JValue → Except PyErr (List JValue)
  | ([], _) => .ok result
  | (first :: remaining, value) =>
    if pyIsDigit first then
      let index := toNatDigits first
      match remaining with
      | [] => .ok (result.set index value)
      | _ :: _ =>
        if (result.getD index .null).isNull then
          .ok (result.set index (create_nested_structure remaining value))
        else
          match set_nested_value (result.getD index .null) remaining value with
          | .ok c => .ok (result.set index c)
          | .error e => .error e
    else .ok result

/-! ## Lemmas: decimal rendering -/

theorem digitChar_isDigit {d : Nat} (h : d < 10) : (digitChar d).isDigit = true := by
  interval_cases d <;> decide

theorem digitChar_toNat {d : Nat} (h : d < 10) : (digitChar d).toNat = 48 + d := by
  interval_cases d <;> decide

theorem natToDigitsAux_congr :
    ∀ f1 f2 n : Nat, n < f1 → n < f2 → natToDigitsAux f1 n = natToDigitsAux f2 n := by
  intro f1
  induction f1 with
  | zero => intro f2 n h1 _; omega
  | succ f ih =>
    intro f2 n h1 h2
    cases f2 with
    | zero => omega
    | succ f2 =>
      by_cases hn : n < 10
      · simp [natToDigitsAux, hn]
      · have hdiv : n / 10 < n := Nat.div_lt_self (by omega) (by omega)
        simp only [natToDigitsAux, if_neg hn]
        rw [ih f2 (n / 10) (by omega) (by omega)]

theorem natToDigits_unfold (n : Nat) :
    natToDigits n =
      if n < 10 then [digitChar n]
      else natToDigits (n / 10) ++ [digitChar (n % 10)] := by
  by_cases hn : n < 10
  · simp [natToDigits, natToDigitsAux, hn]
  · have hdiv : n / 10 < n := Nat.div_lt_self (by omega) (by omega)
    rw [if_neg hn]
    show natToDigitsAux (n + 1) n = natToDigits (n / 10) ++ [digitChar (n % 10)]
    rw [show natToDigitsAux (n + 1) n
        = natToDigitsAux n (n / 10) ++ [digitChar (n % 10)] from by
      simp [natToDigitsAux, hn]]
    rw [natToDigitsAux_congr n (n / 10 + 1) (n / 10) (by omega) (by omega)]
    rfl

theorem natToDigits_ne_nil (n : Nat) : natToDigits n ≠ [] := by
  rw [natToDigits_unfold]
  by_cases hn : n < 10 <;> simp [hn]

theorem mem_natToDigits_isDigit (n : Nat) : ∀ c ∈ natToDigits n, c.isDigit = true := by
  induction n using Nat.strong_induction_on with
  | _ n ih =>
    rw [natToDigits_unfold]
    by_cases hn : n < 10
    · simp only [if_pos hn, List.mem_singleton]
      rintro c rfl
      exact digitChar_isDigit hn
    · have hdiv : n / 10 < n := Nat.div_lt_self (by omega) (by omega)
      simp only [if_neg hn, List.mem_append, List.mem_singleton]
      rintro c (hc | rfl)
      · exact ih (n / 10) hdiv c hc
      · exact digitChar_isDigit (Nat.mod_lt _ (by omega))

theorem pyIsDigit_natToDigits (n : Nat) : pyIsDigit (natToDigits n) = true := by
  unfold pyIsDigit
  cases h : natToDigits n with
  | nil => exact absurd h (natToDigits_ne_nil n)
  | cons c rest =>
    simp only [List.isEmpty_cons, Bool.not_false, Bool.true_and]
    rw [List.all_eq_true]
    intro x hx
    exact mem_natToDigits_isDigit n x (h ▸ hx)

theorem isDigit_ne_slash {c : Char} (h : c.isDigit = true) : c ≠ '/' := by
  rintro rfl; simp at h

theorem isDigit_ne_tilde {c : Char} (h : c.isDigit = true) : c ≠ '~' := by
  rintro rfl; simp at h

theorem slash_not_mem_natToDigits (n : Nat) : '/' ∉ natToDigits n := by
  intro h
  exact isDigit_ne_slash (mem_natToDigits_isDigit n _ h) rfl

theorem toNatDigits_append_last (a : PyStr) (c : Char) :
    toNatDigits (a ++ [c]) = 10 * toNatDigits a + (c.toNat - 48) := by
  simp [toNatDigits, List.foldl_append]

theorem toNatDigits_natToDigits (n : Nat) : toNatDigits (natToDigits n) = n := by
  induction n using Nat.strong_induction_on with
  | _ n ih =>
    rw [natToDigits_unfold]
    by_cases hn : n < 10
    · simp only [if_pos hn]
      show toNatDigits [digitChar n] = n
      simp [toNatDigits, digitChar_toNat hn]
    · have hdiv : n / 10 < n := Nat.div_lt_self (by omega) (by omega)
      simp only [if_neg hn]
      rw [toNatDigits_append_last, ih (n / 10) hdiv,
        digitChar_toNat (Nat.mod_lt _ (by omega))]
      omega

theorem natToDigits_injective {m n : Nat} (h : natToDigits m = natToDigits n) :
    m = n := by
  have := congrArg toNatDigits h
  rwa [toNatDigits_natToDigits, toNatDigits_natToDigits] at this

theorem pyIsDigit_false_of_mem {s : PyStr} {c : Char} (hc : c ∈ s)
    (h : c.isDigit = false) : pyIsDigit s = false := by
  simp only [pyIsDigit, Bool.and_eq_false_iff]
  right
  rw [List.all_eq_false]
  exact ⟨c, hc, by simp [h]⟩

theorem pyIsDigit_mem {s : PyStr} (h : pyIsDigit s = true) :
    ∀ c ∈ s, c.isDigit = true := by
  simp only [pyIsDigit, Bool.and_eq_true, List.all_eq_true] at h
  exact h.2

/-! ## Lemmas: escaping and unescaping -/

theorem escapeSegment_nil : escapeSegment [] = [] := rfl

theorem escapeSegment_cons (c : Char) (k : PyStr) :
    escapeSegment (c :: k) =
      (if c = '~' then ['~', '0'] else if c = '/' then ['~', '1'] else [c])
        ++ escapeSegment k := by
  by_cases h0 : c = '~'
  · subst h0
    simp [escapeSegment, replaceTildeEsc, replaceSlashEsc]
  · by_cases h1 : c = '/'
    · subst h1
      simp [escapeSegment, replaceTildeEsc, replaceSlashEsc]
    · simp [escapeSegment, replaceTildeEsc, replaceSlashEsc, h0, h1]

theorem slash_not_mem_escapeSegment (k : PyStr) : '/' ∉ escapeSegment k := by
  induction k with
  | nil => simp [escapeSegment_nil]
  | cons c k ih =>
    rw [escapeSegment_cons]
    by_cases h0 : c = '~'
    · simp [h0, ih]
    · by_cases h1 : c = '/'
      · simp [h0, h1, ih]
      · simp only [if_neg h0, if_neg h1, List.mem_append, List.mem_singleton]
        rintro (rfl | hc)
        · exact h1 rfl
        · exact ih hc

theorem escapeSegment_eq_nil_iff {k : PyStr} : escapeSegment k = [] ↔ k = [] := by
  cases k with
  | nil => simp [escapeSegment_nil]
  | cons c k =>
    rw [escapeSegment_cons]
    constructor
    · intro h
      by_cases h0 : c = '~' <;> by_cases h1 : c = '/' <;> simp [h0, h1] at h
    · intro h; exact absurd h (by simp)

theorem replaceT1_cons_of_ne {c : Char} {xs : List Char}
    (h : ¬(c = '~' ∧ xs.head? = some '1')) :
    replaceT1 (c :: xs) = c :: replaceT1 xs := by
  cases xs with
  | nil => rfl
  | cons c2 rest =>
    have : ¬(c = '~' ∧ c2 = '1') := by
      intro ⟨hc, hc2⟩; exact h ⟨hc, by simp [hc2]⟩
    simp [replaceT1, this]

theorem replaceT1_tilde_one (xs : List Char) :
    replaceT1 ('~' :: '1' :: xs) = '/' :: replaceT1 xs := by
  simp [replaceT1]

theorem replaceT1_tilde_zero (xs : List Char) :
    replaceT1 ('~' :: '0' :: xs) = '~' :: '0' :: replaceT1 xs := by
  rw [replaceT1_cons_of_ne (by simp), replaceT1_cons_of_ne (by simp)]

theorem replaceT0_cons_of_ne {c : Char} {xs : List Char}
    (h : ¬(c = '~' ∧ xs.head? = some '0')) :
    replaceT0 (c :: xs) = c :: replaceT0 xs := by
  cases xs with
  | nil => rfl
  | cons c2 rest =>
    have : ¬(c = '~' ∧ c2 = '0') := by
      intro ⟨hc, hc2⟩; exact h ⟨hc, by simp [hc2]⟩
    simp [replaceT0, this]

theorem replaceT0_tilde_zero (xs : List Char) :
    replaceT0 ('~' :: '0' :: xs) = '~' :: replaceT0 xs := by
  simp [replaceT0]

theorem replaceT1_escapeSegment (k : PyStr) :
    replaceT1 (escapeSegment k) = replaceTildeEsc k := by
  induction k with
  | nil => rfl
  | cons c k ih =>
    rw [escapeSegment_cons]
    by_cases h0 : c = '~'
    · subst h0
      simpa [replaceTildeEsc, replaceT1_tilde_zero] using congrArg (fun l => '~' :: '0' :: l) ih
    · by_cases h1 : c = '/'
      · subst h1
        simpa [replaceTildeEsc, replaceT1_tilde_one] using congrArg (fun l => '/' :: l) ih
      · rw [if_neg h0, if_neg h1]
        show replaceT1 (c :: escapeSegment k) = replaceTildeEsc (c :: k)
        rw [replaceT1_cons_of_ne (by rintro ⟨rfl, _⟩; exact h0 rfl), ih]
        simp [replaceTildeEsc, h0]

theorem replaceT0_replaceTildeEsc (k : PyStr) :
    replaceT0 (replaceTildeEsc k) = k := by
  induction k with
  | nil => rfl
  | cons c k ih =>
    by_cases h0 : c = '~'
    · subst h0
      show replaceT0 ('~' :: '0' :: replaceTildeEsc k) = '~' :: k
      rw [replaceT0_tilde_zero, ih]
    · show replaceT0 (if c = '~' then '~' :: '0' :: replaceTildeEsc k
        else c :: replaceTildeEsc k) = c :: k
      rw [if_neg h0, replaceT0_cons_of_ne (by rintro ⟨rfl, _⟩; exact h0 rfl), ih]

theorem unescape_escape (k : PyStr) :
    unescapeSegment (escapeSegment k) = k := by
  rw [unescapeSegment, replaceT1_escapeSegment, replaceT0_replaceTildeEsc]

theorem escapeSegment_injective {k1 k2 : PyStr}
    (h : escapeSegment k1 = escapeSegment k2) : k1 = k2 := by
  have := congrArg unescapeSegment h
  rwa [unescape_escape, unescape_escape] at this

theorem escapeSegment_of_digits {s : PyStr} (h : ∀ c ∈ s, c.isDigit = true) :
    escapeSegment s = s := by
  induction s with
  | nil => rfl
  | cons c s ih =>
    have hc := h c (by simp)
    rw [escapeSegment_cons, if_neg (isDigit_ne_tilde hc), if_neg (isDigit_ne_slash hc),
      ih (fun c hc => h c (by simp [hc]))]
    rfl

theorem replaceT1_of_no_tilde {s : PyStr} (h : '~' ∉ s) : replaceT1 s = s := by
  induction s with
  | nil => rfl
  | cons c s ih =>
    rw [replaceT1_cons_of_ne (by rintro ⟨rfl, _⟩; exact h (by simp)),
      ih (fun hc => h (by simp [hc]))]

theorem replaceT0_of_no_tilde {s : PyStr} (h : '~' ∉ s) : replaceT0 s = s := by
  induction s with
  | nil => rfl
  | cons c s ih =>
    rw [replaceT0_cons_of_ne (by rintro ⟨rfl, _⟩; exact h (by simp)),
      ih (fun hc => h (by simp [hc]))]

theorem unescapeSegment_of_no_tilde {s : PyStr} (h : '~' ∉ s) :
    unescapeSegment s = s := by
  rw [unescapeSegment, replaceT1_of_no_tilde h, replaceT0_of_no_tilde h]

theorem unescapeSegment_natToDigits (n : Nat) :
    unescapeSegment (natToDigits n) = natToDigits n := by
  apply unescapeSegment_of_no_tilde
  intro h
  exact isDigit_ne_tilde (mem_natToDigits_isDigit n _ h) rfl

theorem escapeSegment_natToDigits (n : Nat) :
    escapeSegment (natToDigits n) = natToDigits n :=
  escapeSegment_of_digits (mem_natToDigits_isDigit n)

/-! ## Lemmas: splitting and pointer parsing -/

theorem splitOnSlash_of_not_mem {s : List Char} (h : '/' ∉ s) :
    splitOnSlash s = [s] := by
  induction s with
  | nil => rfl
  | cons c rest ih =>
    have hc : c ≠ '/' := by rintro rfl; exact h (by simp)
    rw [splitOnSlash, if_neg hc, ih (fun hr => h (by simp [hr]))]

theorem splitOnSlash_append {a : List Char} (b : List Char) (h : '/' ∉ a) :
    splitOnSlash (a ++ '/' :: b) = a :: splitOnSlash b := by
  induction a with
  | nil => simp [splitOnSlash]
  | cons c rest ih =>
    have hc : c ≠ '/' := by rintro rfl; exact h (by simp)
    rw [List.cons_append, splitOnSlash, if_neg hc,
      ih (fun hr => h (by simp [hr]))]

theorem splitOnSlash_joinSegments :
    ∀ segs : List PyStr, segs ≠ [] →
      splitOnSlash (joinSegments segs) = segs.map escapeSegment
  | [], h => absurd rfl h
  | [s], _ => by
    rw [joinSegments, splitOnSlash_of_not_mem (slash_not_mem_escapeSegment s)]
    rfl
  | s :: s2 :: rest, _ => by
    rw [show joinSegments (s :: s2 :: rest)
        = escapeSegment s ++ '/' :: joinSegments (s2 :: rest) from rfl]
    rw [splitOnSlash_append _ (slash_not_mem_escapeSegment s),
      splitOnSlash_joinSegments (s2 :: rest) (by simp)]
    rfl

theorem joinSegments_eq_nil_iff {segs : List PyStr} :
    joinSegments segs = [] ↔ segs = [] ∨ segs = [[]] := by
  match segs with
  | [] => simp [joinSegments]
  | [s] =>
    rw [joinSegments]
    constructor
    · intro h
      right
      rw [escapeSegment_eq_nil_iff.mp h]
    · rintro (h | h)
      · exact absurd h (by simp)
      · simp at h
        rw [h, escapeSegment_nil]
  | s :: s2 :: rest =>
    rw [show joinSegments (s :: s2 :: rest)
        = escapeSegment s ++ '/' :: joinSegments (s2 :: rest) from rfl]
    simp

theorem parse_renderPointer {segs : List PyStr} (h1 : segs ≠ []) (h2 : segs ≠ [[]]) :
    parse_json_pointer (renderPointer ['/'] segs) = segs := by
  have hne : joinSegments segs ≠ [] := by
    rw [Ne, joinSegments_eq_nil_iff]
    rintro (h | h)
    · exact h1 h
    · exact h2 h
  have hrp : renderPointer ['/'] segs = '/' :: joinSegments segs := rfl
  rw [hrp]
  cases hj : joinSegments segs with
  | nil => exact absurd hj hne
  | cons c cs =>
    show (splitOnSlash (c :: cs)).map unescapeSegment = segs
    rw [← hj, splitOnSlash_joinSegments segs h1, List.map_map]
    have hcomp : (unescapeSegment ∘ escapeSegment) = id := by
      funext k
      exact unescape_escape k
    rw [hcomp, List.map_id]

/-! ## Lemmas: association-list operations -/

theorem lookupField_eq_none {fields : List (PyStr × JValue)} {k : PyStr}
    (h : k ∉ fields.map Prod.fst) : lookupField fields k = none := by
  induction fields with
  | nil => rfl
  | cons kv rest ih =>
    have hk : kv.1 ≠ k := by
      rintro rfl; exact h (by simp)
    rw [show lookupField (kv :: rest) k
        = if kv.1 = k then some kv.2 else lookupField rest k from rfl]
    rw [if_neg hk]
    exact ih (fun hm => h (by simp [hm]))

theorem lookupField_append_singleton {fields : List (PyStr × JValue)} {k : PyStr}
    (c : JValue) (h : k ∉ fields.map Prod.fst) :
    lookupField (fields ++ [(k, c)]) k = some c := by
  induction fields with
  | nil => simp [lookupField]
  | cons kv rest ih =>
    have hk : kv.1 ≠ k := by
      rintro rfl; exact h (by simp)
    rw [List.cons_append,
      show lookupField (kv :: (rest ++ [(k, c)])) k
        = if kv.1 = k then some kv.2 else lookupField (rest ++ [(k, c)]) k from rfl,
      if_neg hk]
    exact ih (fun hm => h (by simp [hm]))

theorem setField_of_not_mem {fields : List (PyStr × JValue)} {k : PyStr}
    (v : JValue) (h : k ∉ fields.map Prod.fst) :
    setField fields k v = fields ++ [(k, v)] := by
  induction fields with
  | nil => rfl
  | cons kv rest ih =>
    have hk : kv.1 ≠ k := by
      rintro rfl; exact h (by simp)
    rw [show setField (kv :: rest) k v
        = if kv.1 = k then (kv.1, v) :: rest else kv :: setField rest k v from by
          cases kv; rfl,
      if_neg hk, ih (fun hm => h (by simp [hm]))]
    rfl

theorem setField_append_singleton {fields : List (PyStr × JValue)} {k : PyStr}
    (c v : JValue) (h : k ∉ fields.map Prod.fst) :
    setField (fields ++ [(k, c)]) k v = fields ++ [(k, v)] := by
  induction fields with
  | nil => simp [setField]
  | cons kv rest ih =>
    have hk : kv.1 ≠ k := by
      rintro rfl; exact h (by simp)
    rw [List.cons_append,
      show setField (kv :: (rest ++ [(k, c)])) k v
        = if kv.1 = k then (kv.1, v) :: (rest ++ [(k, c)])
          else kv :: setField (rest ++ [(k, c)]) k v from by cases kv; rfl,
      if_neg hk, ih (fun hm => h (by simp [hm]))]
    rfl

theorem dictUpdate_nil_right (a : List (PyStr × JValue)) : dictUpdate a [] = a := rfl

theorem dictUpdate_cons (a : List (PyStr × JValue)) (k : PyStr) (v : JValue)
    (b : List (PyStr × JValue)) :
    dictUpdate a ((k, v) :: b) = dictUpdate (setField a k v) b := rfl

theorem dictUpdate_fresh {b : List (PyStr × JValue)} :
    ∀ a : List (PyStr × JValue),
      (∀ key ∈ b.map Prod.fst, key ∉ a.map Prod.fst) →
      (b.map Prod.fst).Nodup →
      dictUpdate a b = a ++ b := by
  induction b with
  | nil => intro a _ _; simp [dictUpdate_nil_right]
  | cons kv b ih =>
    intro a hdisj hnodup
    obtain ⟨k, v⟩ := kv
    rw [List.map_cons] at hnodup
    have hk_not : k ∉ b.map Prod.fst := (List.nodup_cons.mp hnodup).1
    have hnd : (b.map Prod.fst).Nodup := (List.nodup_cons.mp hnodup).2
    rw [dictUpdate_cons,
      setField_of_not_mem v (hdisj k (by simp))]
    rw [ih (a ++ [(k, v)]) ?_ hnd]
    · simp
    · intro key hkey hmem
      simp only [List.map_append, List.mem_append] at hmem
      rcases hmem with hka | hkk
      · exact hdisj key (by simp [hkey]) hka
      · simp only [List.map_cons, List.map_nil, List.mem_singleton] at hkk
        rw [hkk] at hkey
        exact hk_not hkey

/-! ## An induction principle for nested values -/

theorem JValue.myInduction (motive : JValue → Prop)
    (hstr : ∀ s, motive (.str s))
    (hnum : ∀ n, motive (.num n))
    (hbool : ∀ b, motive (.bool b))
    (hnull : motive .null)
    (harr : ∀ items, (∀ x ∈ items, motive x) → motive (.arr items))
    (hobj : ∀ fields, (∀ kv ∈ fields, motive kv.2) → motive (.obj fields)) :
    ∀ v, motive v := by
  have H : ∀ n v, sizeOf v ≤ n → motive v := by
    intro n
    induction n with
    | zero =>
      intro v hv
      exfalso
      cases v <;> simp at hv
    | succ n ih =>
      intro v hv
      cases v with
      | str s => exact hstr s
      | num m => exact hnum m
      | bool b => exact hbool b
      | null => exact hnull
      | arr items =>
        refine harr items (fun x hx => ih x ?_)
        have h1 : sizeOf x < sizeOf items := List.sizeOf_lt_of_mem hx
        have h2 : sizeOf (JValue.arr items) = 1 + sizeOf items := by simp
        omega
      | obj fields =>
        refine hobj fields (fun kv hkv => ih kv.2 ?_)
        have h1 : sizeOf kv < sizeOf fields := List.sizeOf_lt_of_mem hkv
        have h2 : sizeOf kv.2 < sizeOf kv := by
          obtain ⟨a, b⟩ := kv
          simp
        have h3 : sizeOf (JValue.obj fields) = 1 + sizeOf fields := by simp
        omega
  exact fun v => H (sizeOf v) v le_rfl

/-! ## Well-formedness: extraction lemmas -/

theorem wfInnerFields_mem {fields : List (PyStr × JValue)}
    (h : wfInnerFields fields = true) : ∀ kv ∈ fields, wfInner kv.2 = true := by
  induction fields with
  | nil => intro kv hkv; simp at hkv
  | cons kv0 rest ih =>
    obtain ⟨k0, v0⟩ := kv0
    rw [show wfInnerFields ((k0, v0) :: rest) = (wfInner v0 && wfInnerFields rest)
      from rfl, Bool.and_eq_true] at h
    intro kv hkv
    rcases List.mem_cons.mp hkv with rfl | hmem
    · exact h.1
    · exact ih h.2 kv hmem

theorem wfInnerItems_mem {items : List JValue}
    (h : wfInnerItems items = true) : ∀ x ∈ items, wfInner x = true := by
  induction items with
  | nil => intro x hx; simp at hx
  | cons x0 rest ih =>
    rw [show wfInnerItems (x0 :: rest) = (wfInner x0 && wfInnerItems rest)
      from rfl, Bool.and_eq_true] at h
    intro x hx
    rcases List.mem_cons.mp hx with rfl | hmem
    · exact h.1
    · exact ih h.2 x hmem

theorem wfInner_obj {fields : List (PyStr × JValue)}
    (h : wfInner (.obj fields) = true) :
    (∃ k0 v0 rest, fields = (k0, v0) :: rest ∧ pyIsDigit k0 = false)
      ∧ (fields.map Prod.fst).Nodup ∧ wfInnerFields fields = true := by
  match fields with
  | [] => simp [wfInner] at h
  | (k0, v0) :: rest =>
    rw [show wfInner (.obj ((k0, v0) :: rest))
        = (!pyIsDigit k0 && decide ((((k0, v0) :: rest).map Prod.fst).Nodup)
            && wfInner v0 && wfInnerFields rest) from rfl] at h
    simp only [Bool.and_eq_true, Bool.not_eq_true', decide_eq_true_eq] at h
    refine ⟨⟨k0, v0, rest, rfl, h.1.1.1⟩, h.1.1.2, ?_⟩
    rw [show wfInnerFields ((k0, v0) :: rest) = (wfInner v0 && wfInnerFields rest)
      from rfl, Bool.and_eq_true]
    exact ⟨h.1.2, h.2⟩

theorem wfInner_arr {items : List JValue}
    (h : wfInner (.arr items) = true) :
    items ≠ [] ∧ wfInnerItems items = true := by
  match items with
  | [] => simp [wfInner] at h
  | x :: rest =>
    rw [show wfInner (.arr (x :: rest)) = (wfInner x && wfInnerItems rest)
      from rfl, Bool.and_eq_true] at h
    refine ⟨by simp, ?_⟩
    rw [show wfInnerItems (x :: rest) = (wfInner x && wfInnerItems rest)
      from rfl, Bool.and_eq_true]
    exact h

theorem wfRoot_obj {fields : List (PyStr × JValue)}
    (h : wfRoot (.obj fields) = true) :
    fields ≠ [] ∧ (fields.map Prod.fst).Nodup
      ∧ (∃ kv ∈ fields, pyIsDigit kv.1 = false)
      ∧ (∀ kv ∈ fields, kv.1 = [] → isLeafB kv.2 = false)
      ∧ wfInnerFields fields = true := by
  rw [show wfRoot (.obj fields)
      = (!fields.isEmpty && decide ((fields.map Prod.fst).Nodup)
          && fields.any (fun kv => !pyIsDigit kv.1)
          && fields.all (fun kv => !(kv.1.isEmpty && isLeafB kv.2))
          && wfInnerFields fields) from rfl] at h
  simp only [Bool.and_eq_true, Bool.not_eq_true', decide_eq_true_eq,
    List.any_eq_true, List.all_eq_true] at h
  refine ⟨?_, h.1.1.1.2, ?_, ?_, h.2⟩
  · intro hnil
    rw [hnil] at h
    simpa using h.1.1.1.1
  · obtain ⟨kv, hkv, hd⟩ := h.1.1.2
    exact ⟨kv, hkv, by simpa using hd⟩
  · intro kv hkv hk
    have := h.1.2 kv hkv
    simp only [Bool.and_eq_false_iff, Bool.not_eq_true'] at this
    rcases (by simpa using this) with h1 | h2
    · exact absurd hk (by simpa using h1)
    · exact h2

theorem wfRoot_arr {items : List JValue}
    (h : wfRoot (.arr items) = true) :
    items ≠ [] ∧ wfInnerItems items = true := by
  rw [show wfRoot (.arr items) = (!items.isEmpty && wfInnerItems items)
    from rfl, Bool.and_eq_true] at h
  refine ⟨?_, h.2⟩
  intro hnil
  rw [hnil] at h
  simpa using h.1

/-! ## `leafEntries`: equation and shape lemmas -/

theorem leafEntries_obj (fields : List (PyStr × JValue)) :
    leafEntries (.obj fields) = leafEntriesFields fields := rfl

theorem leafEntries_arr (items : List JValue) :
    leafEntries (.arr items) = leafEntriesItems items 0 := rfl

theorem leafEntries_leaf {v : JValue} (h : isLeafB v = true) :
    leafEntries v = [] := by
  cases v <;> first | rfl | simp [isLeafB] at h

theorem leafEntriesFields_cons_leaf {v : JValue} (k : PyStr)
    (rest : List (PyStr × JValue)) (h : isLeafB v = true) :
    leafEntriesFields ((k, v) :: rest) = ([k], v) :: leafEntriesFields rest := by
  cases v <;> first | rfl | simp [isLeafB] at h

theorem leafEntriesFields_cons_container {v : JValue} (k : PyStr)
    (rest : List (PyStr × JValue)) (h : isLeafB v = false) :
    leafEntriesFields ((k, v) :: rest)
      = (leafEntries v).map (fun e => (k :: e.1, e.2)) ++ leafEntriesFields rest := by
  cases v <;> first | rfl | simp [isLeafB] at h

theorem leafEntriesItems_cons_leaf {x : JValue} (i : Nat) (rest : List JValue)
    (h : isLeafB x = true) :
    leafEntriesItems (x :: rest) i
      = ([natToDigits i], x) :: leafEntriesItems rest (i + 1) := by
  cases x <;> first | rfl | simp [isLeafB] at h

theorem leafEntriesItems_cons_container {x : JValue} (i : Nat) (rest : List JValue)
    (h : isLeafB x = false) :
    leafEntriesItems (x :: rest) i
      = (leafEntries x).map (fun e => (natToDigits i :: e.1, e.2))
          ++ leafEntriesItems rest (i + 1) := by
  cases x <;> first | rfl | simp [isLeafB] at h

theorem leafEntries_ne_nil :
    ∀ v : JValue, wfInner v = true → isLeafB v = false → leafEntries v ≠ [] := by
  intro v
  induction v using JValue.myInduction with
  | hstr s => intro _ h; simp [isLeafB] at h
  | hnum n => intro _ h; simp [isLeafB] at h
  | hbool b => intro _ h; simp [isLeafB] at h
  | hnull => intro _ h; simp [isLeafB] at h
  | harr items ih =>
    intro hwf _
    obtain ⟨hne, hitems⟩ := wfInner_arr hwf
    match items with
    | [] => exact absurd rfl hne
    | x :: rest =>
      rw [leafEntries_arr]
      by_cases hx : isLeafB x = true
      · rw [leafEntriesItems_cons_leaf _ _ hx]
        simp
      · rw [leafEntriesItems_cons_container _ _ (by simpa using hx)]
        have hxne := ih x (by simp) (wfInnerItems_mem hitems x (by simp))
          (by simpa using hx)
        intro happ
        rcases List.append_eq_nil.mp happ with ⟨hmap, _⟩
        exact hxne (List.map_eq_nil_iff.mp hmap)
  | hobj fields ih =>
    intro hwf _
    obtain ⟨⟨k0, v0, rest, rfl, _⟩, _, hflds⟩ := wfInner_obj hwf
    rw [leafEntries_obj]
    by_cases hv : isLeafB v0 = true
    · rw [leafEntriesFields_cons_leaf _ _ hv]
      simp
    · rw [leafEntriesFields_cons_container _ _ (by simpa using hv)]
      have hvne := ih (k0, v0) (by simp) (wfInnerFields_mem hflds (k0, v0) (by simp))
        (by simpa using hv)
      intro happ
      rcases List.append_eq_nil.mp happ with ⟨hmap, _⟩
      exact hvne (List.map_eq_nil_iff.mp hmap)

/-! ## Rendered pointers are injective on segment paths -/

theorem map_escapeSegment_inj :
    ∀ {s1 s2 : List PyStr}, s1.map escapeSegment = s2.map escapeSegment → s1 = s2 := by
  intro s1
  induction s1 with
  | nil =>
    intro s2 h
    cases s2 with
    | nil => rfl
    | cons b s2 => simp at h
  | cons a s1 ih =>
    intro s2 h
    cases s2 with
    | nil => simp at h
    | cons b s2 =>
      simp only [List.map_cons, List.cons.injEq] at h
      rw [escapeSegment_injective h.1, ih h.2]

theorem joinSegments_inj {s1 s2 : List PyStr} (h1 : s1 ≠ []) (h2 : s2 ≠ [])
    (h : joinSegments s1 = joinSegments s2) : s1 = s2 := by
  have hs := congrArg splitOnSlash h
  rw [splitOnSlash_joinSegments s1 h1, splitOnSlash_joinSegments s2 h2] at hs
  exact map_escapeSegment_inj hs

theorem renderPointer_inj {pp : PyStr} {s1 s2 : List PyStr} (h1 : s1 ≠ [])
    (h2 : s2 ≠ []) (h : pp ++ joinSegments s1 = pp ++ joinSegments s2) : s1 = s2 :=
  joinSegments_inj h1 h2 (List.append_cancel_left h)

theorem joinSegments_cons_cons (s s2 : PyStr) (rest : List PyStr) :
    joinSegments (s :: s2 :: rest)
      = escapeSegment s ++ '/' :: joinSegments (s2 :: rest) := rfl

theorem joinSegments_singleton (s : PyStr) : joinSegments [s] = escapeSegment s := rfl

/-! ## Heads of leaf segment paths -/

theorem leafEntriesFields_head :
    ∀ fields : List (PyStr × JValue), ∀ e ∈ leafEntriesFields fields,
      ∃ k t, e.1 = k :: t ∧ k ∈ fields.map Prod.fst := by
  intro fields
  induction fields with
  | nil => simp [leafEntriesFields]
  | cons kv rest ih =>
    obtain ⟨k, v⟩ := kv
    intro e he
    by_cases hv : isLeafB v = true
    · rw [leafEntriesFields_cons_leaf _ _ hv] at he
      rcases List.mem_cons.mp he with rfl | hmem
      · exact ⟨k, [], rfl, by simp⟩
      · obtain ⟨k2, t, h1, h2⟩ := ih e hmem
        exact ⟨k2, t, h1, by simp [h2]⟩
    · rw [leafEntriesFields_cons_container _ _ (by simpa using hv)] at he
      rcases List.mem_append.mp he with hmem | hmem
      · obtain ⟨e0, _, rfl⟩ := List.mem_map.mp hmem
        exact ⟨k, e0.1, rfl, by simp⟩
      · obtain ⟨k2, t, h1, h2⟩ := ih e hmem
        exact ⟨k2, t, h1, by simp [h2]⟩

theorem leafEntriesItems_head :
    ∀ (items : List JValue) (i : Nat), ∀ e ∈ leafEntriesItems items i,
      ∃ j t, e.1 = natToDigits j :: t ∧ i ≤ j ∧ j < i + items.length := by
  intro items
  induction items with
  | nil => simp [leafEntriesItems]
  | cons x rest ih =>
    intro i e he
    by_cases hx : isLeafB x = true
    · rw [leafEntriesItems_cons_leaf _ _ hx] at he
      rcases List.mem_cons.mp he with rfl | hmem
      · exact ⟨i, [], rfl, le_rfl, by simp⟩
      · obtain ⟨j, t, h1, h2, h3⟩ := ih (i + 1) e hmem
        exact ⟨j, t, h1, by omega, by simp; omega⟩
    · rw [leafEntriesItems_cons_container _ _ (by simpa using hx)] at he
      rcases List.mem_append.mp he with hmem | hmem
      · obtain ⟨e0, _, rfl⟩ := List.mem_map.mp hmem
        exact ⟨i, e0.1, rfl, le_rfl, by simp⟩
      · obtain ⟨j, t, h1, h2, h3⟩ := ih (i + 1) e hmem
        exact ⟨j, t, h1, by omega, by simp; omega⟩

theorem leafEntries_segs_ne_nil :
    ∀ v : JValue, ∀ e ∈ leafEntries v, e.1 ≠ [] := by
  intro v e he
  match v with
  | .str s => simp [leafEntries_leaf, isLeafB] at he
  | .num n => simp [leafEntries_leaf, isLeafB] at he
  | .bool b => simp [leafEntries_leaf, isLeafB] at he
  | .null => simp [leafEntries_leaf, isLeafB] at he
  | .obj fields =>
    rw [leafEntries_obj] at he
    obtain ⟨k, t, h1, _⟩ := leafEntriesFields_head fields e he
    simp [h1]
  | .arr items =>
    rw [leafEntries_arr] at he
    obtain ⟨j, t, h1, _⟩ := leafEntriesItems_head items 0 e he
    simp [h1]

theorem leafEntriesFields_head_surj :
    ∀ fields : List (PyStr × JValue), wfInnerFields fields = true →
      ∀ kv ∈ fields, ∃ e ∈ leafEntriesFields fields, ∃ t, e.1 = kv.1 :: t := by
  intro fields
  induction fields with
  | nil => intro _ kv hkv; simp at hkv
  | cons kv0 rest ih =>
    obtain ⟨k, v⟩ := kv0
    intro hwf kv hkv
    have hwf2 : wfInner v = true ∧ wfInnerFields rest = true := by
      rw [show wfInnerFields ((k, v) :: rest) = (wfInner v && wfInnerFields rest)
        from rfl, Bool.and_eq_true] at hwf
      exact hwf
    rcases List.mem_cons.mp hkv with rfl | hmem
    · by_cases hv : isLeafB v = true
      · rw [leafEntriesFields_cons_leaf _ _ hv]
        exact ⟨([k], v), by simp, [], rfl⟩
      · obtain ⟨e0, he0⟩ := List.exists_mem_of_ne_nil _
          (leafEntries_ne_nil v hwf2.1 (by simpa using hv))
        rw [leafEntriesFields_cons_container _ _ (by simpa using hv)]
        refine ⟨(k :: e0.1, e0.2), ?_, e0.1, rfl⟩
        apply List.mem_append_left
        exact List.mem_map.mpr ⟨e0, he0, rfl⟩
    · obtain ⟨e, he, t, ht⟩ := ih hwf2.2 kv hmem
      by_cases hv : isLeafB v = true
      · rw [leafEntriesFields_cons_leaf _ _ hv]
        exact ⟨e, by simp [he], t, ht⟩
      · rw [leafEntriesFields_cons_container _ _ (by simpa using hv)]
        exact ⟨e, List.mem_append_right _ he, t, ht⟩

theorem leafEntriesItems_head_surj :
    ∀ (items : List JValue) (i : Nat), wfInnerItems items = true →
      ∀ j, i ≤ j → j < i + items.length →
        ∃ e ∈ leafEntriesItems items i, ∃ t, e.1 = natToDigits j :: t := by
  intro items
  induction items with
  | nil => intro i _ j _ h2; simp at h2; omega
  | cons x rest ih =>
    intro i hwf j h1 h2
    have hwf2 : wfInner x = true ∧ wfInnerItems rest = true := by
      rw [show wfInnerItems (x :: rest) = (wfInner x && wfInnerItems rest)
        from rfl, Bool.and_eq_true] at hwf
      exact hwf
    by_cases hj : j = i
    · subst hj
      by_cases hx : isLeafB x = true
      · rw [leafEntriesItems_cons_leaf _ _ hx]
        exact ⟨([natToDigits j], x), by simp, [], rfl⟩
      · obtain ⟨e0, he0⟩ := List.exists_mem_of_ne_nil _
          (leafEntries_ne_nil x hwf2.1 (by simpa using hx))
        rw [leafEntriesItems_cons_container _ _ (by simpa using hx)]
        refine ⟨(natToDigits j :: e0.1, e0.2), ?_, e0.1, rfl⟩
        apply List.mem_append_left
        exact List.mem_map.mpr ⟨e0, he0, rfl⟩
    · have h2' : j < (i + 1) + rest.length := by simp at h2; omega
      obtain ⟨e, he, t, ht⟩ := ih (i + 1) hwf2.2 j (by omega) h2'
      by_cases hx : isLeafB x = true
      · rw [leafEntriesItems_cons_leaf _ _ hx]
        exact ⟨e, by simp [he], t, ht⟩
      · rw [leafEntriesItems_cons_container _ _ (by simpa using hx)]
        exact ⟨e, List.mem_append_right _ he, t, ht⟩

/-! ## Leaf segment paths are distinct -/

theorem cons_injective_tail (k : PyStr) :
    Function.Injective (fun t : List PyStr => k :: t) := by
  intro a b h
  exact ((List.cons.injEq _ _ _ _).mp h).2

theorem map_fst_map_cons (k : PyStr) (l : List (List PyStr × JValue)) :
    (l.map (fun e => (k :: e.1, e.2))).map Prod.fst
      = (l.map Prod.fst).map (fun t => k :: t) := by
  rw [List.map_map, List.map_map]
  rfl

theorem leafFields_fst_nodup :
    ∀ fields : List (PyStr × JValue),
      (∀ kv ∈ fields, isLeafB kv.2 = false → ((leafEntries kv.2).map Prod.fst).Nodup) →
      (fields.map Prod.fst).Nodup →
      ((leafEntriesFields fields).map Prod.fst).Nodup := by
  intro fields
  induction fields with
  | nil => intro _ _; simp [leafEntriesFields]
  | cons kv0 rest ih =>
    obtain ⟨k, v⟩ := kv0
    intro hsub hnodup
    rw [List.map_cons] at hnodup
    have hk_not : k ∉ rest.map Prod.fst := (List.nodup_cons.mp hnodup).1
    have hnd_rest : (rest.map Prod.fst).Nodup := (List.nodup_cons.mp hnodup).2
    have hrest := ih (fun kv hkv h => hsub kv (by simp [hkv]) h) hnd_rest
    have hdisj : ∀ t : List PyStr, (k :: t) ∉ (leafEntriesFields rest).map Prod.fst := by
      intro t hmem
      obtain ⟨e, he, hfst⟩ := List.mem_map.mp hmem
      obtain ⟨k2, t2, h1, h2⟩ := leafEntriesFields_head rest e he
      rw [h1] at hfst
      have hk2 : k2 = k := ((List.cons.injEq _ _ _ _).mp hfst).1
      exact hk_not (hk2 ▸ h2)
    by_cases hv : isLeafB v = true
    · rw [leafEntriesFields_cons_leaf _ _ hv, List.map_cons]
      exact List.nodup_cons.mpr ⟨hdisj [], hrest⟩
    · rw [leafEntriesFields_cons_container _ _ (by simpa using hv), List.map_append]
      refine List.Nodup.append ?_ hrest ?_
      · rw [map_fst_map_cons]
        exact (hsub (k, v) (by simp) (by simpa using hv)).map (cons_injective_tail k)
      · intro a ha hb
        rw [map_fst_map_cons] at ha
        obtain ⟨t, _, rfl⟩ := List.mem_map.mp ha
        exact hdisj t hb

theorem leafItems_fst_nodup :
    ∀ (items : List JValue) (i : Nat),
      (∀ x ∈ items, isLeafB x = false → ((leafEntries x).map Prod.fst).Nodup) →
      ((leafEntriesItems items i).map Prod.fst).Nodup := by
  intro items
  induction items with
  | nil => intro _ _; simp [leafEntriesItems]
  | cons x rest ih =>
    intro i hsub
    have hrest := ih (i + 1) (fun y hy h => hsub y (by simp [hy]) h)
    have hdisj : ∀ t : List PyStr,
        (natToDigits i :: t) ∉ (leafEntriesItems rest (i + 1)).map Prod.fst := by
      intro t hmem
      obtain ⟨e, he, hfst⟩ := List.mem_map.mp hmem
      obtain ⟨j, t2, h1, h2, _⟩ := leafEntriesItems_head rest (i + 1) e he
      rw [h1] at hfst
      have hj : natToDigits j = natToDigits i := ((List.cons.injEq _ _ _ _).mp hfst).1
      have := natToDigits_injective hj
      omega
    by_cases hx : isLeafB x = true
    · rw [leafEntriesItems_cons_leaf _ _ hx, List.map_cons]
      exact List.nodup_cons.mpr ⟨hdisj [], hrest⟩
    · rw [leafEntriesItems_cons_container _ _ (by simpa using hx), List.map_append]
      refine List.Nodup.append ?_ hrest ?_
      · rw [map_fst_map_cons]
        exact (hsub x (by simp) (by simpa using hx)).map
          (cons_injective_tail (natToDigits i))
      · intro a ha hb
        rw [map_fst_map_cons] at ha
        obtain ⟨t, _, rfl⟩ := List.mem_map.mp ha
        exact hdisj t hb

theorem leafEntries_fst_nodup :
    ∀ v : JValue, wfInner v = true → ((leafEntries v).map Prod.fst).Nodup := by
  intro v
  induction v using JValue.myInduction with
  | hstr s => intro _; simp [leafEntries_leaf, isLeafB]
  | hnum n => intro _; simp [leafEntries_leaf, isLeafB]
  | hbool b => intro _; simp [leafEntries_leaf, isLeafB]
  | hnull => intro _; simp [leafEntries_leaf, isLeafB]
  | harr items ih =>
    intro hwf
    obtain ⟨_, hitems⟩ := wfInner_arr hwf
    rw [leafEntries_arr]
    exact leafItems_fst_nodup items 0
      (fun x hx h => ih x hx (wfInnerItems_mem hitems x hx))
  | hobj fields ih =>
    intro hwf
    obtain ⟨_, hnodup, hflds⟩ := wfInner_obj hwf
    rw [leafEntries_obj]
    exact leafFields_fst_nodup fields
      (fun kv hkv h => ih kv hkv (wfInnerFields_mem hflds kv hkv)) hnodup

/-! ## Characterizing `flatten_to_json_pointers` by `leafEntries` -/

theorem render_ne_of_head_ne {pp : PyStr} {k1 k2 : PyStr} {t1 t2 : List PyStr}
    (h : k1 ≠ k2) :
    pp ++ joinSegments (k1 :: t1) ≠ pp ++ joinSegments (k2 :: t2) := by
  intro he
  have hinj := renderPointer_inj (by simp) (by simp) he
  exact h ((List.cons.injEq _ _ _ _).mp hinj).1

theorem renderTail_injective (pp k : PyStr) :
    Function.Injective (fun t : List PyStr => pp ++ joinSegments (k :: t)) := by
  intro a b h
  have hinj := renderPointer_inj (by simp) (by simp) h
  exact ((List.cons.injEq _ _ _ _).mp hinj).2

theorem renderEntry_deepen {pp k : PyStr} {e : List PyStr × JValue}
    (h : e.1 ≠ []) :
    renderEntry (pp ++ escapeSegment k ++ ['/']) e
      = renderEntry pp (k :: e.1, e.2) := by
  obtain ⟨segs, x⟩ := e
  cases segs with
  | nil => exact absurd rfl h
  | cons s t =>
    show ((pp ++ escapeSegment k ++ ['/']) ++ joinSegments (s :: t), x)
      = (pp ++ joinSegments (k :: s :: t), x)
    rw [joinSegments_cons_cons]
    simp

theorem renderBlock_eq {pp k : PyStr} (l : List (List PyStr × JValue))
    (hne : ∀ e ∈ l, e.1 ≠ []) :
    l.map (renderEntry (pp ++ escapeSegment k ++ ['/']))
      = (l.map (fun e => (k :: e.1, e.2))).map (renderEntry pp) := by
  rw [List.map_map]
  exact List.map_congr_left (fun e he => renderEntry_deepen (hne e he))

theorem renderBlock_keys (pp k : PyStr) (l : List (List PyStr × JValue)) :
    (((l.map (fun e => (k :: e.1, e.2))).map (renderEntry pp)).map Prod.fst)
      = (l.map Prod.fst).map (fun t => pp ++ joinSegments (k :: t)) := by
  rw [List.map_map, List.map_map, List.map_map]
  rfl

theorem flattenFieldsLoop_cons_leaf {v : JValue} (k : PyStr)
    (rest : List (PyStr × JValue)) (pp : PyStr) (res : List (PyStr × JValue))
    (h : isLeafB v = true) :
    flattenFieldsLoop ((k, v) :: rest) pp res
      = flattenFieldsLoop rest pp (setField res (pp ++ escapeSegment k) v) := by
  cases v <;> first | rfl | simp [isLeafB] at h

theorem flattenFieldsLoop_cons_container {v : JValue} (k : PyStr)
    (rest : List (PyStr × JValue)) (pp : PyStr) (res : List (PyStr × JValue))
    (h : isLeafB v = false) :
    flattenFieldsLoop ((k, v) :: rest) pp res
      = flattenFieldsLoop rest pp
          (dictUpdate res
            (flatten_to_json_pointers v (pp ++ escapeSegment k ++ ['/']))) := by
  cases v <;> first | rfl | simp [isLeafB] at h

theorem flattenItemsLoop_cons_leaf {x : JValue} (i : Nat) (rest : List JValue)
    (pp : PyStr) (res : List (PyStr × JValue)) (h : isLeafB x = true) :
    flattenItemsLoop (x :: rest) i pp res
      = flattenItemsLoop rest (i + 1) pp (setField res (pp ++ natToDigits i) x) := by
  cases x <;> first | rfl | simp [isLeafB] at h

theorem flattenItemsLoop_cons_container {x : JValue} (i : Nat) (rest : List JValue)
    (pp : PyStr) (res : List (PyStr × JValue)) (h : isLeafB x = false) :
    flattenItemsLoop (x :: rest) i pp res
      = flattenItemsLoop rest (i + 1) pp
          (dictUpdate res
            (flatten_to_json_pointers x (pp ++ natToDigits i ++ ['/']))) := by
  cases x <;> first | rfl | simp [isLeafB] at h

theorem flattenFieldsLoop_eq :
    ∀ (fields : List (PyStr × JValue)) (pp : PyStr) (res : List (PyStr × JValue)),
      (∀ kv ∈ fields, ∀ pp2, wfInner kv.2 = true → isLeafB kv.2 = false →
        flatten_to_json_pointers kv.2 pp2 = (leafEntries kv.2).map (renderEntry pp2)) →
      wfInnerFields fields = true →
      (fields.map Prod.fst).Nodup →
      (∀ key ∈ res.map Prod.fst, ∀ k ∈ fields.map Prod.fst, ∀ t : List PyStr,
        key ≠ pp ++ joinSegments (k :: t)) →
      flattenFieldsLoop fields pp res
        = res ++ (leafEntriesFields fields).map (renderEntry pp) := by
  intro fields
  induction fields with
  | nil => intro pp res _ _ _ _; simp [flattenFieldsLoop, leafEntriesFields]
  | cons kv0 rest ih =>
    obtain ⟨k, v⟩ := kv0
    intro pp res hIH hwf hnodup hfresh
    have hwfv : wfInner v = true ∧ wfInnerFields rest = true := by
      rw [show wfInnerFields ((k, v) :: rest) = (wfInner v && wfInnerFields rest)
        from rfl, Bool.and_eq_true] at hwf
      exact hwf
    rw [List.map_cons] at hnodup
    have hk_not : k ∉ rest.map Prod.fst := (List.nodup_cons.mp hnodup).1
    have hnd_rest : (rest.map Prod.fst).Nodup := (List.nodup_cons.mp hnodup).2
    have hIH_rest : ∀ kv ∈ rest, ∀ pp2, wfInner kv.2 = true → isLeafB kv.2 = false →
        flatten_to_json_pointers kv.2 pp2 = (leafEntries kv.2).map (renderEntry pp2) :=
      fun kv hkv => hIH kv (by simp [hkv])
    by_cases hv : isLeafB v = true
    · rw [flattenFieldsLoop_cons_leaf _ _ _ _ hv]
      have hcur_not : (pp ++ escapeSegment k) ∉ res.map Prod.fst := by
        intro hmem
        exact hfresh _ hmem k (by simp) [] (by rw [joinSegments_singleton])
      rw [setField_of_not_mem v hcur_not]
      rw [ih pp (res ++ [(pp ++ escapeSegment k, v)]) hIH_rest hwfv.2 hnd_rest ?_]
      · rw [leafEntriesFields_cons_leaf _ _ hv, List.map_cons]
        simp [renderEntry, joinSegments_singleton]
      · intro key hkey k2 hk2 t
        rw [List.map_append, List.mem_append] at hkey
        rcases hkey with hkey | hkey
        · exact hfresh key hkey k2 (by simp [hk2]) t
        · simp only [List.map_cons, List.map_nil, List.mem_singleton] at hkey
          subst hkey
          have hk2k : k ≠ k2 := by
            rintro rfl; exact hk_not hk2
          rw [show pp ++ escapeSegment k = pp ++ joinSegments [k] from by
            rw [joinSegments_singleton]]
          exact @render_ne_of_head_ne pp k k2 [] t hk2k
    · have hvfalse : isLeafB v = false := by simpa using hv
      rw [flattenFieldsLoop_cons_container _ _ _ _ hvfalse]
      rw [hIH (k, v) (by simp) _ hwfv.1 hvfalse]
      rw [renderBlock_eq _ (leafEntries_segs_ne_nil v)]
      have hblock_keys :
          (((leafEntries v).map (fun e => (k :: e.1, e.2))).map (renderEntry pp)).map
            Prod.fst
            = ((leafEntries v).map Prod.fst).map (fun t => pp ++ joinSegments (k :: t)) :=
        renderBlock_keys pp k (leafEntries v)
      have hupd : dictUpdate res
          (((leafEntries v).map (fun e => (k :: e.1, e.2))).map (renderEntry pp))
          = res ++ ((leafEntries v).map (fun e => (k :: e.1, e.2))).map (renderEntry pp) := by
        apply dictUpdate_fresh
        · intro key hkey
          rw [hblock_keys] at hkey
          obtain ⟨t, _, rfl⟩ := List.mem_map.mp hkey
          intro hmem
          exact hfresh _ hmem k (by simp) t rfl
        · rw [hblock_keys]
          exact (leafEntries_fst_nodup v hwfv.1).map (renderTail_injective pp k)
      rw [hupd]
      rw [ih pp _ hIH_rest hwfv.2 hnd_rest ?_]
      · rw [leafEntriesFields_cons_container _ _ hvfalse, List.map_append]
        simp
      · intro key hkey k2 hk2 t
        rw [List.map_append, List.mem_append] at hkey
        rcases hkey with hkey | hkey
        · exact hfresh key hkey k2 (by simp [hk2]) t
        · rw [hblock_keys] at hkey
          obtain ⟨t0, _, rfl⟩ := List.mem_map.mp hkey
          have hk2k : k ≠ k2 := by
            rintro rfl; exact hk_not hk2
          exact render_ne_of_head_ne hk2k

theorem flattenItemsLoop_eq :
    ∀ (items : List JValue) (i : Nat) (pp : PyStr) (res : List (PyStr × JValue)),
      (∀ x ∈ items, ∀ pp2, wfInner x = true → isLeafB x = false →
        flatten_to_json_pointers x pp2 = (leafEntries x).map (renderEntry pp2)) →
      wfInnerItems items = true →
      (∀ key ∈ res.map Prod.fst, ∀ j, i ≤ j → ∀ t : List PyStr,
        key ≠ pp ++ joinSegments (natToDigits j :: t)) →
      flattenItemsLoop items i pp res
        = res ++ (leafEntriesItems items i).map (renderEntry pp) := by
  intro items
  induction items with
  | nil => intro i pp res _ _ _; simp [flattenItemsLoop, leafEntriesItems]
  | cons x rest ih =>
    intro i pp res hIH hwf hfresh
    have hwfx : wfInner x = true ∧ wfInnerItems rest = true := by
      rw [show wfInnerItems (x :: rest) = (wfInner x && wfInnerItems rest)
        from rfl, Bool.and_eq_true] at hwf
      exact hwf
    have hIH_rest : ∀ y ∈ rest, ∀ pp2, wfInner y = true → isLeafB y = false →
        flatten_to_json_pointers y pp2 = (leafEntries y).map (renderEntry pp2) :=
      fun y hy => hIH y (by simp [hy])
    have hjoin : pp ++ natToDigits i = pp ++ joinSegments [natToDigits i] := by
      rw [show joinSegments [natToDigits i] = escapeSegment (natToDigits i) from rfl,
        escapeSegment_natToDigits]
    by_cases hx : isLeafB x = true
    · rw [flattenItemsLoop_cons_leaf _ _ _ _ hx]
      have hcur_not : (pp ++ natToDigits i) ∉ res.map Prod.fst := by
        intro hmem
        exact hfresh _ hmem i le_rfl [] hjoin
      rw [setField_of_not_mem x hcur_not]
      rw [ih (i + 1) pp (res ++ [(pp ++ natToDigits i, x)]) hIH_rest hwfx.2 ?_]
      · rw [leafEntriesItems_cons_leaf _ _ hx, List.map_cons]
        simp only [renderEntry]
        rw [← hjoin]
        simp
      · intro key hkey j hj t
        rw [List.map_append, List.mem_append] at hkey
        rcases hkey with hkey | hkey
        · exact hfresh key hkey j (by omega) t
        · simp only [List.map_cons, List.map_nil, List.mem_singleton] at hkey
          subst hkey
          rw [hjoin]
          apply render_ne_of_head_ne
          intro he
          have := natToDigits_injective he
          omega
    · have hxfalse : isLeafB x = false := by simpa using hx
      rw [flattenItemsLoop_cons_container _ _ _ _ hxfalse]
      have hpre : pp ++ natToDigits i ++ ['/']
          = pp ++ escapeSegment (natToDigits i) ++ ['/'] := by
        rw [escapeSegment_natToDigits]
      rw [hIH x (by simp) _ hwfx.1 hxfalse, hpre]
      rw [renderBlock_eq _ (leafEntries_segs_ne_nil x)]
      have hblock_keys := renderBlock_keys pp (natToDigits i) (leafEntries x)
      have hupd : dictUpdate res
          (((leafEntries x).map (fun e => (natToDigits i :: e.1, e.2))).map
            (renderEntry pp))
          = res ++ ((leafEntries x).map (fun e => (natToDigits i :: e.1, e.2))).map
              (renderEntry pp) := by
        apply dictUpdate_fresh
        · intro key hkey
          rw [hblock_keys] at hkey
          obtain ⟨t, _, rfl⟩ := List.mem_map.mp hkey
          intro hmem
          exact hfresh _ hmem i le_rfl t rfl
        · rw [hblock_keys]
          exact (leafEntries_fst_nodup x hwfx.1).map
            (renderTail_injective pp (natToDigits i))
      rw [hupd]
      rw [ih (i + 1) pp _ hIH_rest hwfx.2 ?_]
      · rw [leafEntriesItems_cons_container _ _ hxfalse, List.map_append]
        simp
      · intro key hkey j hj t
        rw [List.map_append, List.mem_append] at hkey
        rcases hkey with hkey | hkey
        · exact hfresh key hkey j (by omega) t
        · rw [hblock_keys] at hkey
          obtain ⟨t0, _, rfl⟩ := List.mem_map.mp hkey
          apply render_ne_of_head_ne
          intro he
          have := natToDigits_injective he
          omega

theorem flatten_eq_render :
    ∀ v : JValue, ∀ pp, wfInner v = true → isLeafB v = false →
      flatten_to_json_pointers v pp = (leafEntries v).map (renderEntry pp) := by
  intro v
  induction v using JValue.myInduction with
  | hstr s => intro pp _ h; simp [isLeafB] at h
  | hnum n => intro pp _ h; simp [isLeafB] at h
  | hbool b => intro pp _ h; simp [isLeafB] at h
  | hnull => intro pp _ h; simp [isLeafB] at h
  | harr items ih =>
    intro pp hwf _
    obtain ⟨_, hitems⟩ := wfInner_arr hwf
    rw [show flatten_to_json_pointers (.arr items) pp
        = flattenItemsLoop items 0 pp [] from rfl, leafEntries_arr]
    rw [flattenItemsLoop_eq items 0 pp []
      (fun x hx pp2 => ih x hx pp2) hitems (by simp)]
    rfl
  | hobj fields ih =>
    intro pp hwf _
    obtain ⟨_, hnodup, hflds⟩ := wfInner_obj hwf
    rw [show flatten_to_json_pointers (.obj fields) pp
        = flattenFieldsLoop fields pp [] from rfl, leafEntries_obj]
    rw [flattenFieldsLoop_eq fields pp []
      (fun kv hkv pp2 => ih kv hkv pp2) hflds hnodup (by simp)]
    rfl

theorem flatten_eq_render_root {v : JValue} (h : wfRoot v = true) :
    flatten_to_json_pointers v ['/'] = (leafEntries v).map (renderEntry ['/']) := by
  match v with
  | .str s => simp [wfRoot] at h
  | .num n => simp [wfRoot] at h
  | .bool b => simp [wfRoot] at h
  | .null => simp [wfRoot] at h
  | .arr items =>
    obtain ⟨_, hitems⟩ := wfRoot_arr h
    rw [show flatten_to_json_pointers (.arr items) ['/']
        = flattenItemsLoop items 0 ['/'] [] from rfl, leafEntries_arr]
    rw [flattenItemsLoop_eq items 0 ['/'] []
      (fun x _ pp2 hwf hleaf => flatten_eq_render x pp2 hwf hleaf) hitems (by simp)]
    rfl
  | .obj fields =>
    obtain ⟨_, hnodup, _, _, hflds⟩ := wfRoot_obj h
    rw [show flatten_to_json_pointers (.obj fields) ['/']
        = flattenFieldsLoop fields ['/'] [] from rfl, leafEntries_obj]
    rw [flattenFieldsLoop_eq fields ['/'] []
      (fun kv _ pp2 hwf hleaf => flatten_eq_render kv.2 pp2 hwf hleaf) hflds hnodup
      (by simp)]
    rfl

/-! ## Small list and `Except` helpers -/

theorem set_append_len {α : Type} :
    ∀ (xs : List α) (y : α) (ys : List α) (v : α),
      (xs ++ y :: ys).set xs.length v = xs ++ v :: ys := by
  intro xs
  induction xs with
  | nil => intro y ys v; rfl
  | cons x xs ih => intro y ys v; simp [List.set_cons_succ, ih]

theorem getD_append_len {α : Type} :
    ∀ (xs : List α) (y : α) (ys : List α) (d : α),
      (xs ++ y :: ys).getD xs.length d = y := by
  intro xs
  induction xs with
  | nil => intro y ys d; rfl
  | cons x xs ih => intro y ys d; simpa using ih y ys d

theorem getD_set_self {α : Type} :
    ∀ (xs : List α) (i : Nat) (v d : α), i < xs.length →
      (xs.set i v).getD i d = v := by
  intro xs
  induction xs with
  | nil => intro i v d h; simp at h
  | cons x xs ih =>
    intro i v d h
    cases i with
    | zero => rfl
    | succ i =>
      rw [List.set_cons_succ]
      simpa using ih i v d (by simpa using h)

theorem getD_set_ne {α : Type} :
    ∀ (xs : List α) (i j : Nat) (v d : α), i ≠ j →
      (xs.set i v).getD j d = xs.getD j d := by
  intro xs
  induction xs with
  | nil => intro i j v d h; simp
  | cons x xs ih =>
    intro i j v d h
    cases i with
    | zero =>
      cases j with
      | zero => exact absurd rfl h
      | succ j => rfl
    | succ i =>
      cases j with
      | zero => rfl
      | succ j =>
        rw [List.set_cons_succ]
        simpa using ih i j v d (by omega)

theorem getD_replicate_null (m j : Nat) :
    (List.replicate m (JValue.null)).getD j .null = .null := by
  induction m generalizing j with
  | zero => simp
  | succ m ih =>
    cases j with
    | zero => rfl
    | succ j => simp [List.replicate_succ, ih j]

theorem except_map_ok {α β : Type} {f : α → β} {e : Except PyErr α} {r : β}
    (h : e.map f = .ok r) : ∃ a, e = .ok a ∧ r = f a := by
  cases e with
  | ok a =>
    refine ⟨a, rfl, ?_⟩
    simpa [Except.map] using h.symm
  | error err => simp [Except.map] at h

/-! ## `set_nested_value`: scenario equations -/

theorem snv_nil (o value : JValue) : set_nested_value o [] value = .ok o := by
  cases o <;> rfl

theorem snv_leaf_obj {o : JValue} (first : PyStr) (rest : List PyStr)
    (value : JValue) (h1 : isLeafB o = true) :
    set_nested_value o (first :: rest) value = .error .typeError := by
  cases o <;> first | rfl | simp [isLeafB] at h1

theorem snv_arr_leaf_seg {xs : List JValue} {first : PyStr} (value : JValue)
    (h : pyIsDigit first = true) :
    set_nested_value (.arr xs) [first] value
      = .ok (.arr ((xs ++ List.replicate (toNatDigits first + 1 - xs.length)
          (JValue.arr [])).set (toNatDigits first) value)) := by
  simp [set_nested_value, h]

theorem snv_arr_descend {xs : List JValue} {first r0 : PyStr}
    (rrest : List PyStr) (value : JValue) (h : pyIsDigit first = true) :
    set_nested_value (.arr xs) (first :: r0 :: rrest) value
      = (let filler : JValue := if pyIsDigit r0 then .arr [] else .obj [];
         let xs1 := xs ++ List.replicate (toNatDigits first + 1 - xs.length) filler;
         let child := xs1.getD (toNatDigits first) .null;
         let child1 := if child.isNull then filler else child;
         (set_nested_value child1 (r0 :: rrest) value).map
           (fun c2 => .arr (xs1.set (toNatDigits first) c2))) := by
  by_cases hr : pyIsDigit r0 = true <;> simp [set_nested_value, h, hr]

theorem snv_arr_nondigit {xs : List JValue} {first : PyStr}
    (rest : List PyStr) (value : JValue) (h : pyIsDigit first = false) :
    set_nested_value (.arr xs) (first :: rest) value = .ok (.arr xs) := by
  cases rest <;> simp [set_nested_value, h]

theorem snv_obj_leaf_seg (fields : List (PyStr × JValue)) (first : PyStr)
    (value : JValue) :
    set_nested_value (.obj fields) [first] value
      = .ok (.obj (setField fields first value)) := by
  simp [set_nested_value]

theorem snv_obj_descend_present {fields : List (PyStr × JValue)} {first : PyStr}
    {child : JValue} (r0 : PyStr) (rrest : List PyStr) (value : JValue)
    (h : lookupField fields first = some child) :
    set_nested_value (.obj fields) (first :: r0 :: rrest) value
      = (set_nested_value child (r0 :: rrest) value).map
          (fun c2 => .obj (setField fields first c2)) := by
  simp [set_nested_value, h]

theorem snv_obj_descend_absent {fields : List (PyStr × JValue)} {first : PyStr}
    (r0 : PyStr) (rrest : List PyStr) (value : JValue)
    (h : lookupField fields first = none) :
    set_nested_value (.obj fields) (first :: r0 :: rrest) value
      = (set_nested_value (if pyIsDigit r0 then JValue.arr [] else .obj [])
          (r0 :: rrest) value).map
          (fun c2 => .obj (fields ++ [(first, c2)])) := by
  by_cases hr : pyIsDigit r0 = true <;> simp [set_nested_value, h, hr]

/-! ## `set_nested_value` preserves the container constructor -/

theorem snv_arr_ok {xs : List JValue} {path : List PyStr} {value r : JValue}
    (h : set_nested_value (.arr xs) path value = .ok r) : ∃ ys, r = .arr ys := by
  cases path with
  | nil =>
    rw [snv_nil] at h
    exact ⟨xs, by injection h with h2; exact h2.symm⟩
  | cons first rest =>
    by_cases hd : pyIsDigit first = true
    · cases rest with
      | nil =>
        rw [snv_arr_leaf_seg value hd] at h
        exact ⟨_, by injection h with h2; exact h2.symm⟩
      | cons r0 rrest =>
        rw [snv_arr_descend rrest value hd] at h
        obtain ⟨a, _, rfl⟩ := except_map_ok h
        exact ⟨_, rfl⟩
    · rw [snv_arr_nondigit rest value (by simpa using hd)] at h
      exact ⟨xs, by injection h with h2; exact h2.symm⟩

theorem snv_obj_ok {fields : List (PyStr × JValue)} {path : List PyStr}
    {value r : JValue} (h : set_nested_value (.obj fields) path value = .ok r) :
    ∃ flds2, r = .obj flds2 := by
  cases path with
  | nil =>
    rw [snv_nil] at h
    exact ⟨fields, by injection h with h2; exact h2.symm⟩
  | cons first rest =>
    cases rest with
    | nil =>
      rw [snv_obj_leaf_seg] at h
      exact ⟨_, by injection h with h2; exact h2.symm⟩
    | cons r0 rrest =>
      cases hlf : lookupField fields first with
      | some child =>
        rw [snv_obj_descend_present r0 rrest value hlf] at h
        obtain ⟨a, _, rfl⟩ := except_map_ok h
        exact ⟨_, rfl⟩
      | none =>
        rw [snv_obj_descend_absent r0 rrest value hlf] at h
        obtain ⟨a, _, rfl⟩ := except_map_ok h
        exact ⟨_, rfl⟩

theorem snv_not_null {o : JValue} {path : List PyStr} {value r : JValue}
    (hpath : path ≠ []) (ho : o.isNull = false)
    (h : set_nested_value o path value = .ok r) : r.isNull = false := by
  match o with
  | .arr xs =>
    obtain ⟨ys, rfl⟩ := snv_arr_ok h
    rfl
  | .obj fields =>
    obtain ⟨flds2, rfl⟩ := snv_obj_ok h
    rfl
  | .str s =>
    cases path with
    | nil => exact absurd rfl hpath
    | cons a b => rw [snv_leaf_obj a b value (by rfl)] at h; exact absurd h (by simp)
  | .num n =>
    cases path with
    | nil => exact absurd rfl hpath
    | cons a b => rw [snv_leaf_obj a b value (by rfl)] at h; exact absurd h (by simp)
  | .bool b0 =>
    cases path with
    | nil => exact absurd rfl hpath
    | cons a b => rw [snv_leaf_obj a b value (by rfl)] at h; exact absurd h (by simp)
  | .null => simp [JValue.isNull] at ho

/-! ## `foldSet`: basic equations -/

theorem foldSet_nil (c : JValue) : foldSet c [] = .ok c := rfl

theorem foldSet_cons (c : JValue) (segs : List PyStr) (x : JValue)
    (rest : List (List PyStr × JValue)) :
    foldSet c ((segs, x) :: rest)
      = match set_nested_value c segs x with
        | .ok c2 => foldSet c2 rest
        | .error e => .error e := rfl

theorem foldSet_append :
    ∀ (a b : List (List PyStr × JValue)) (c : JValue),
      foldSet c (a ++ b)
        = match foldSet c a with
          | .ok c2 => foldSet c2 b
          | .error e => .error e := by
  intro a
  induction a with
  | nil => intro b c; rfl
  | cons e a ih =>
    intro b c
    obtain ⟨segs, x⟩ := e
    rw [List.cons_append, foldSet_cons, foldSet_cons]
    cases set_nested_value c segs x with
    | ok c2 => exact ih b c2
    | error err => rfl

/-! ## `_create_nested_structure` agrees with `_set_nested_value` into a
fresh empty container, along paths whose digit segments are all `"0"` —
which is the shape of the first-visited leaf path of any well-formed
container. -/

theorem create_not_null :
    ∀ (segs : List PyStr) (x : JValue), segs ≠ [] →
      (create_nested_structure segs x).isNull = false := by
  intro segs x h
  match segs with
  | s0 :: rest =>
    by_cases hd : pyIsDigit s0 = true <;>
      cases rest <;> simp [create_nested_structure, hd, JValue.isNull]

theorem create_eq_set_first :
    ∀ (segs : List PyStr) (s0 : PyStr) (x : JValue),
      (∀ s ∈ s0 :: segs, pyIsDigit s = false ∨ s = ['0']) →
      set_nested_value (if pyIsDigit s0 then JValue.arr [] else .obj [])
          (s0 :: segs) x
        = .ok (create_nested_structure (s0 :: segs) x) := by
  intro segs
  induction segs with
  | nil =>
    intro s0 x h
    rcases h s0 (by simp) with hd | hd
    · rw [if_neg (by simp [hd]), snv_obj_leaf_seg]
      simp [create_nested_structure, hd, setField]
    · subst hd
      rw [if_pos (by decide)]
      rfl
  | cons r0 rrest ih =>
    intro s0 x h
    have hr := ih r0 x (fun s hs => h s (by simp at hs ⊢; tauto))
    rcases h s0 (by simp) with hd | hd
    · rw [if_neg (by simp [hd]),
        snv_obj_descend_absent r0 rrest x (by rfl), hr]
      simp [create_nested_structure, hd, Except.map]
    · subst hd
      rw [if_pos (by decide)]
      have hstep : set_nested_value (.arr []) (['0'] :: r0 :: rrest) x
          = (set_nested_value (if pyIsDigit r0 then JValue.arr [] else .obj [])
              (r0 :: rrest) x).map (fun c2 => .arr [c2]) := by
        rw [snv_arr_descend rrest x (by decide)]
        have h0 : toNatDigits ['0'] = 0 := by decide
        by_cases hrr : pyIsDigit r0 = true <;>
          simp [hrr, h0, JValue.isNull]
      rw [hstep, hr]
      have hcr : create_nested_structure (['0'] :: r0 :: rrest) x
          = .arr [create_nested_structure (r0 :: rrest) x] := by
        have h0 : toNatDigits ['0'] = 0 := by decide
        have h1 : pyIsDigit ['0'] = true := by decide
        simp [create_nested_structure, h0, h1]
      rw [hcr]
      rfl

/-! ## The first leaf entry of a well-formed container -/

theorem leafEntries_first_shape :
    ∀ v : JValue, wfInner v = true → isLeafB v = false →
      ∃ r0 rr x1 restL, leafEntries v = (r0 :: rr, x1) :: restL ∧
        (if pyIsDigit r0 then JValue.arr [] else .obj []) = emptyFor v := by
  intro v hwf hleaf
  match v with
  | .str s => simp [isLeafB] at hleaf
  | .num n => simp [isLeafB] at hleaf
  | .bool b => simp [isLeafB] at hleaf
  | .null => simp [isLeafB] at hleaf
  | .arr items =>
    obtain ⟨hne, hitems⟩ := wfInner_arr hwf
    match items with
    | [] => exact absurd rfl hne
    | x :: rest =>
      rw [leafEntries_arr]
      by_cases hx : isLeafB x = true
      · rw [leafEntriesItems_cons_leaf _ _ hx]
        exact ⟨natToDigits 0, [], x, _, rfl,
          by rw [if_pos (pyIsDigit_natToDigits 0)]; rfl⟩
      · rw [leafEntriesItems_cons_container _ _ (by simpa using hx)]
        have hxwf : wfInner x = true := wfInnerItems_mem hitems x (by simp)
        cases h0 : leafEntries x with
        | nil => exact absurd h0 (leafEntries_ne_nil x hxwf (by simpa using hx))
        | cons e0 l0 =>
          refine ⟨natToDigits 0, e0.1, e0.2,
            l0.map (fun e => (natToDigits 0 :: e.1, e.2))
              ++ leafEntriesItems rest (0 + 1), ?_, ?_⟩
          · simp
          · rw [if_pos (pyIsDigit_natToDigits 0)]
            rfl
  | .obj fields =>
    obtain ⟨⟨k0, v0, frest, rfl, hk0⟩, _, hflds⟩ := wfInner_obj hwf
    rw [leafEntries_obj]
    have hv0wf : wfInner v0 = true := wfInnerFields_mem hflds (k0, v0) (by simp)
    by_cases hv : isLeafB v0 = true
    · rw [leafEntriesFields_cons_leaf _ _ hv]
      exact ⟨k0, [], v0, _, rfl, by rw [if_neg (by simp [hk0])]; rfl⟩
    · rw [leafEntriesFields_cons_container _ _ (by simpa using hv)]
      cases h0 : leafEntries v0 with
      | nil => exact absurd h0 (leafEntries_ne_nil v0 hv0wf (by simpa using hv))
      | cons e0 l0 =>
        refine ⟨k0, e0.1, e0.2,
          l0.map (fun e => (k0 :: e.1, e.2)) ++ leafEntriesFields frest, ?_, ?_⟩
        · simp
        · rw [if_neg (by simp [hk0])]
          rfl

theorem firstLeaf_good :
    ∀ v : JValue, wfInner v = true → isLeafB v = false →
      ∀ s1 x1 restL, leafEntries v = (s1, x1) :: restL →
        ∀ s ∈ s1, pyIsDigit s = false ∨ s = ['0'] := by
  intro v
  induction v using JValue.myInduction with
  | hstr s => intro _ h; simp [isLeafB] at h
  | hnum n => intro _ h; simp [isLeafB] at h
  | hbool b => intro _ h; simp [isLeafB] at h
  | hnull => intro _ h; simp [isLeafB] at h
  | harr items ih =>
    intro hwf _ s1 x1 restL hle s hs
    obtain ⟨hne, hitems⟩ := wfInner_arr hwf
    have hd0 : natToDigits 0 = ['0'] := by decide
    match items with
    | [] => exact absurd rfl hne
    | x :: rest =>
      rw [leafEntries_arr] at hle
      by_cases hx : isLeafB x = true
      · rw [leafEntriesItems_cons_leaf _ _ hx] at hle
        have hs1 : s1 = [natToDigits 0] := (Prod.mk.injEq _ _ _ _).mp
          ((List.cons.injEq _ _ _ _).mp hle).1 |>.1.symm
        rw [hs1] at hs
        simp at hs
        right
        rw [hs, hd0]
      · rw [leafEntriesItems_cons_container _ _ (by simpa using hx)] at hle
        have hxwf : wfInner x = true := wfInnerItems_mem hitems x (by simp)
        cases h0 : leafEntries x with
        | nil => exact absurd h0 (leafEntries_ne_nil x hxwf (by simpa using hx))
        | cons e0 l0 =>
          rw [h0] at hle
          have hs1 : s1 = natToDigits 0 :: e0.1 := (Prod.mk.injEq _ _ _ _).mp
            ((List.cons.injEq _ _ _ _).mp hle).1 |>.1.symm
          rw [hs1] at hs
          rcases List.mem_cons.mp hs with rfl | hmem
          · right; rw [hd0]
          · exact ih x (by simp) hxwf (by simpa using hx) e0.1 e0.2 l0
              (by rw [h0]) s hmem
  | hobj fields ih =>
    intro hwf _ s1 x1 restL hle s hs
    obtain ⟨⟨k0, v0, frest, rfl, hk0⟩, _, hflds⟩ := wfInner_obj hwf
    rw [leafEntries_obj] at hle
    have hv0wf : wfInner v0 = true := wfInnerFields_mem hflds (k0, v0) (by simp)
    by_cases hv : isLeafB v0 = true
    · rw [leafEntriesFields_cons_leaf _ _ hv] at hle
      have hs1 : s1 = [k0] := (Prod.mk.injEq _ _ _ _).mp
        ((List.cons.injEq _ _ _ _).mp hle).1 |>.1.symm
      rw [hs1] at hs
      simp at hs
      left
      rw [hs]
      exact hk0
    · rw [leafEntriesFields_cons_container _ _ (by simpa using hv)] at hle
      cases h0 : leafEntries v0 with
      | nil => exact absurd h0 (leafEntries_ne_nil v0 hv0wf (by simpa using hv))
      | cons e0 l0 =>
        rw [h0] at hle
        have hs1 : s1 = k0 :: e0.1 := (Prod.mk.injEq _ _ _ _).mp
          ((List.cons.injEq _ _ _ _).mp hle).1 |>.1.symm
        rw [hs1] at hs
        rcases List.mem_cons.mp hs with rfl | hmem
        · left; exact hk0
        · exact ih (k0, v0) (by simp) hv0wf (by simpa using hv) e0.1 e0.2 l0
            (by rw [h0]) s hmem

/-! ## Folding a whole block of leaf entries into one child slot -/

theorem emptyFor_not_null (v : JValue) : (emptyFor v).isNull = false := by
  cases v <;> rfl

theorem foldSet_obj_block :
    ∀ (entries : List (List PyStr × JValue)) (flds : List (PyStr × JValue))
      (k : PyStr) (c : JValue),
      k ∉ flds.map Prod.fst →
      (∀ e ∈ entries, e.1 ≠ []) →
      foldSet (.obj (flds ++ [(k, c)])) (entries.map (fun e => (k :: e.1, e.2)))
        = (foldSet c entries).map (fun c2 => .obj (flds ++ [(k, c2)])) := by
  intro entries
  induction entries with
  | nil => intro flds k c _ _; rfl
  | cons e rest ih =>
    intro flds k c hk hne
    obtain ⟨segs, x⟩ := e
    have hsegs : segs ≠ [] := hne (segs, x) (by simp)
    cases segs with
    | nil => exact absurd rfl hsegs
    | cons r0 rr =>
      rw [List.map_cons, foldSet_cons, foldSet_cons,
        snv_obj_descend_present r0 rr x (lookupField_append_singleton c hk)]
      cases hin : set_nested_value c (r0 :: rr) x with
      | ok c2 =>
        simp only [Except.map]
        rw [setField_append_singleton c c2 hk]
        exact ih flds k c2 hk (fun e he => hne e (by simp [he]))
      | error err =>
        simp only [Except.map]

theorem foldSet_arr_block :
    ∀ (entries : List (List PyStr × JValue)) (xs : List JValue) (c : JValue),
      c.isNull = false →
      (∀ e ∈ entries, e.1 ≠ []) →
      foldSet (.arr (xs ++ [c]))
          (entries.map (fun e => (natToDigits xs.length :: e.1, e.2)))
        = (foldSet c entries).map (fun c2 => .arr (xs ++ [c2])) := by
  intro entries
  induction entries with
  | nil => intro xs c _ _; rfl
  | cons e rest ih =>
    intro xs c hc hne
    obtain ⟨segs, x⟩ := e
    have hsegs : segs ≠ [] := hne (segs, x) (by simp)
    cases segs with
    | nil => exact absurd rfl hsegs
    | cons r0 rr =>
      rw [List.map_cons, foldSet_cons, foldSet_cons,
        snv_arr_descend rr x (pyIsDigit_natToDigits xs.length)]
      have hx1 : ∀ f : JValue,
          (xs ++ [c]) ++ List.replicate
            (toNatDigits (natToDigits xs.length) + 1 - (xs ++ [c]).length) f
          = xs ++ [c] := by
        intro f
        rw [toNatDigits_natToDigits]
        simp
      have hchild : (xs ++ [c]).getD (toNatDigits (natToDigits xs.length)) .null
          = c := by
        rw [toNatDigits_natToDigits]
        exact getD_append_len xs c [] .null
      simp only [hx1, hchild, hc, if_neg, Bool.false_eq_true, not_false_eq_true,
        if_false]
      cases hin : set_nested_value c (r0 :: rr) x with
      | ok c2 =>
        simp only [Except.map]
        rw [toNatDigits_natToDigits,
          show (xs ++ [c]).set xs.length c2 = xs ++ [c2] from set_append_len xs c [] c2]
        exact ih xs c2 (snv_not_null (by simp) hc hin)
          (fun e he => hne e (by simp [he]))
      | error err =>
        simp only [Except.map]

theorem foldSet_obj_insert (v : JValue) (flds : List (PyStr × JValue)) (k : PyStr)
    (hwf : wfInner v = true) (hleaf : isLeafB v = false)
    (hk : k ∉ flds.map Prod.fst) :
    foldSet (.obj flds) ((leafEntries v).map (fun e => (k :: e.1, e.2)))
      = (foldSet (emptyFor v) (leafEntries v)).map
          (fun w => .obj (flds ++ [(k, w)])) := by
  obtain ⟨r0, rr, x1, restL, hle, hfill⟩ := leafEntries_first_shape v hwf hleaf
  have hrest_ne : ∀ e ∈ restL, e.1 ≠ [] := by
    intro e he
    exact leafEntries_segs_ne_nil v e (by rw [hle]; simp [he])
  rw [hle, List.map_cons, foldSet_cons, foldSet_cons,
    snv_obj_descend_absent r0 rr x1 (lookupField_eq_none hk), hfill]
  cases hin : set_nested_value (emptyFor v) (r0 :: rr) x1 with
  | ok c1 =>
    simp only [Except.map]
    exact foldSet_obj_block restL flds k c1 hk hrest_ne
  | error err =>
    simp only [Except.map]

theorem foldSet_arr_insert (v : JValue) (xs : List JValue)
    (hwf : wfInner v = true) (hleaf : isLeafB v = false) :
    foldSet (.arr xs)
        ((leafEntries v).map (fun e => (natToDigits xs.length :: e.1, e.2)))
      = (foldSet (emptyFor v) (leafEntries v)).map (fun w => .arr (xs ++ [w])) := by
  obtain ⟨r0, rr, x1, restL, hle, hfill⟩ := leafEntries_first_shape v hwf hleaf
  have hrest_ne : ∀ e ∈ restL, e.1 ≠ [] := by
    intro e he
    exact leafEntries_segs_ne_nil v e (by rw [hle]; simp [he])
  have hstep : set_nested_value (.arr xs) (natToDigits xs.length :: r0 :: rr) x1
      = (set_nested_value (emptyFor v) (r0 :: rr) x1).map
          (fun c2 => .arr (xs ++ [c2])) := by
    rw [snv_arr_descend rr x1 (pyIsDigit_natToDigits xs.length)]
    simp only [toNatDigits_natToDigits, hfill,
      show xs.length + 1 - xs.length = 1 from by omega,
      show ∀ z : JValue, List.replicate 1 z = [z] from fun z => rfl,
      show (xs ++ [emptyFor v]).getD xs.length JValue.null = emptyFor v from
        getD_append_len xs (emptyFor v) [] JValue.null,
      emptyFor_not_null, Bool.false_eq_true, if_false,
      show ∀ c2 : JValue, (xs ++ [emptyFor v]).set xs.length c2 = xs ++ [c2] from
        fun c2 => set_append_len xs (emptyFor v) [] c2]
  rw [hle, List.map_cons, foldSet_cons, foldSet_cons, hstep]
  cases hin : set_nested_value (emptyFor v) (r0 :: rr) x1 with
  | ok c1 =>
    simp only [Except.map]
    exact foldSet_arr_block restL xs c1
      (snv_not_null (by simp) (emptyFor_not_null v) hin) hrest_ne
  | error err =>
    simp only [Except.map]

/-! ## Rebuilding whole containers from their leaf entries -/

theorem foldSet_fields :
    ∀ (fields flds : List (PyStr × JValue)),
      (∀ kv ∈ fields, wfInner kv.2 = true → isLeafB kv.2 = false →
        foldSet (emptyFor kv.2) (leafEntries kv.2) = .ok kv.2) →
      wfInnerFields fields = true →
      (((flds ++ fields).map Prod.fst)).Nodup →
      foldSet (.obj flds) (leafEntriesFields fields) = .ok (.obj (flds ++ fields)) := by
  intro fields
  induction fields with
  | nil => intro flds _ _ _; simp [leafEntriesFields, foldSet_nil]
  | cons kv0 rest ih =>
    obtain ⟨k, v⟩ := kv0
    intro flds hD hwf hnodup
    have hwf2 : wfInner v = true ∧ wfInnerFields rest = true := by
      rw [show wfInnerFields ((k, v) :: rest) = (wfInner v && wfInnerFields rest)
        from rfl, Bool.and_eq_true] at hwf
      exact hwf
    have hk_not : k ∉ flds.map Prod.fst := by
      intro hmem
      have : ¬ ((flds.map Prod.fst ++ (k :: rest.map Prod.fst))).Nodup → False := by
        intro h2
        exact h2 (by simpa using hnodup)
      have hnd : ((flds.map Prod.fst) ++ k :: rest.map Prod.fst).Nodup := by
        simpa using hnodup
      have := (List.nodup_append.mp hnd).2.2
      exact this hmem (by simp)
    have hnodup2 : (((flds ++ [(k, v)]) ++ rest).map Prod.fst).Nodup := by
      simpa using hnodup
    have hD_rest : ∀ kv ∈ rest, wfInner kv.2 = true → isLeafB kv.2 = false →
        foldSet (emptyFor kv.2) (leafEntries kv.2) = .ok kv.2 :=
      fun kv hkv => hD kv (by simp [hkv])
    by_cases hv : isLeafB v = true
    · rw [leafEntriesFields_cons_leaf _ _ hv, foldSet_cons, snv_obj_leaf_seg,
        setField_of_not_mem v hk_not]
      show foldSet (.obj (flds ++ [(k, v)])) (leafEntriesFields rest)
        = .ok (.obj (flds ++ (k, v) :: rest))
      rw [ih (flds ++ [(k, v)]) hD_rest hwf2.2 hnodup2]
      simp
    · have hvf : isLeafB v = false := by simpa using hv
      rw [leafEntriesFields_cons_container _ _ hvf, foldSet_append]
      rw [foldSet_obj_insert v flds k hwf2.1 hvf hk_not]
      rw [hD (k, v) (by simp) hwf2.1 hvf]
      show foldSet (.obj (flds ++ [(k, v)])) (leafEntriesFields rest)
        = .ok (.obj (flds ++ (k, v) :: rest))
      have := ih (flds ++ [(k, v)]) hD_rest hwf2.2 hnodup2
      rw [this]
      simp

theorem foldSet_items :
    ∀ (items xs : List JValue),
      (∀ x ∈ items, wfInner x = true → isLeafB x = false →
        foldSet (emptyFor x) (leafEntries x) = .ok x) →
      wfInnerItems items = true →
      foldSet (.arr xs) (leafEntriesItems items xs.length)
        = .ok (.arr (xs ++ items)) := by
  intro items
  induction items with
  | nil => intro xs _ _; simp [leafEntriesItems, foldSet_nil]
  | cons x rest ih =>
    intro xs hD hwf
    have hwf2 : wfInner x = true ∧ wfInnerItems rest = true := by
      rw [show wfInnerItems (x :: rest) = (wfInner x && wfInnerItems rest)
        from rfl, Bool.and_eq_true] at hwf
      exact hwf
    have hD_rest : ∀ y ∈ rest, wfInner y = true → isLeafB y = false →
        foldSet (emptyFor y) (leafEntries y) = .ok y :=
      fun y hy => hD y (by simp [hy])
    by_cases hx : isLeafB x = true
    · rw [leafEntriesItems_cons_leaf _ _ hx, foldSet_cons,
        snv_arr_leaf_seg x (pyIsDigit_natToDigits xs.length)]
      rw [toNatDigits_natToDigits]
      rw [show xs.length + 1 - xs.length = 1 from by omega]
      rw [show xs ++ List.replicate 1 (JValue.arr []) = xs ++ [JValue.arr []]
        from rfl]
      rw [show (xs ++ [JValue.arr []]).set xs.length x = xs ++ [x] from
        set_append_len xs (JValue.arr []) [] x]
      show foldSet (.arr (xs ++ [x])) (leafEntriesItems rest (xs.length + 1))
        = .ok (.arr (xs ++ x :: rest))
      have h2 := ih (xs ++ [x]) hD_rest hwf2.2
      rw [show (xs ++ [x]).length = xs.length + 1 from by simp] at h2
      rw [h2]
      simp
    · have hxf : isLeafB x = false := by simpa using hx
      rw [leafEntriesItems_cons_container _ _ hxf, foldSet_append]
      rw [foldSet_arr_insert x xs hwf2.1 hxf]
      rw [hD x (by simp) hwf2.1 hxf]
      show foldSet (.arr (xs ++ [x])) (leafEntriesItems rest (xs.length + 1))
        = .ok (.arr (xs ++ x :: rest))
      have := ih (xs ++ [x]) hD_rest hwf2.2
      rw [show (xs ++ [x]).length = xs.length + 1 from by simp] at this
      rw [this]
      simp

theorem foldSet_leafEntries :
    ∀ w : JValue, wfInner w = true → isLeafB w = false →
      foldSet (emptyFor w) (leafEntries w) = .ok w := by
  intro w
  induction w using JValue.myInduction with
  | hstr s => intro _ h; simp [isLeafB] at h
  | hnum n => intro _ h; simp [isLeafB] at h
  | hbool b => intro _ h; simp [isLeafB] at h
  | hnull => intro _ h; simp [isLeafB] at h
  | harr items ih =>
    intro hwf _
    obtain ⟨_, hitems⟩ := wfInner_arr hwf
    have := foldSet_items items []
      (fun x hx => ih x hx) hitems
    simpa [emptyFor, leafEntries_arr] using this
  | hobj fields ih =>
    intro hwf _
    obtain ⟨_, hnodup, hflds⟩ := wfInner_obj hwf
    have := foldSet_fields fields []
      (fun kv hkv => ih kv hkv) hflds (by simpa using hnodup)
    simpa [emptyFor, leafEntries_obj] using this

/-! ## The reconstruction loops, related to `foldSet` and `listStep` -/

theorem unflattenDictLoop_eq_foldSet :
    ∀ (entries : List (List PyStr × JValue)) (c : JValue),
      (∀ e ∈ entries, e.1 ≠ []) →
      unflattenDictLoop c entries = foldSet c entries := by
  intro entries
  induction entries with
  | nil => intro c _; rfl
  | cons e rest ih =>
    intro c hne
    obtain ⟨parts, value⟩ := e
    cases parts with
    | nil => exact absurd rfl (hne ([], value) (by simp))
    | cons p0 prest =>
      rw [show unflattenDictLoop c ((p0 :: prest, value) :: rest)
          = (match set_nested_value c (p0 :: prest) value with
             | .ok acc2 => unflattenDictLoop acc2 rest
             | .error e => .error e) from rfl,
        foldSet_cons]
      cases set_nested_value c (p0 :: prest) value with
      | ok c2 => exact ih c2 (fun e he => hne e (by simp [he]))
      | error err => rfl

theorem listLoop_cons (res : List JValue) (parts : List PyStr) (value : JValue)
    (rest : List (List PyStr × JValue)) :
    unflattenListLoop res ((parts, value) :: rest)
      = match listStep res (parts, value) with
        | .ok r2 => unflattenListLoop r2 rest
        | .error e => .error e := by
  cases parts with
  | nil => rfl
  | cons first remaining =>
    cases remaining with
    | nil =>
      rw [show unflattenListLoop res ((first :: [], value) :: rest)
          = (if pyIsDigit first
             then unflattenListLoop (res.set (toNatDigits first) value) rest
             else unflattenListLoop res rest) from rfl,
        show listStep res ((first :: [], value))
          = (if pyIsDigit first then .ok (res.set (toNatDigits first) value)
             else .ok res) from rfl]
      by_cases hd : pyIsDigit first = true
      · rw [if_pos hd, if_pos hd]
      · rw [if_neg hd, if_neg hd]
    | cons r0 rrest =>
      rw [show unflattenListLoop res ((first :: r0 :: rrest, value) :: rest)
          = (if pyIsDigit first
             then
               (if (res.getD (toNatDigits first) .null).isNull
                then unflattenListLoop (res.set (toNatDigits first)
                  (create_nested_structure (r0 :: rrest) value)) rest
                else
                  match set_nested_value (res.getD (toNatDigits first) .null)
                      (r0 :: rrest) value with
                  | .ok c => unflattenListLoop (res.set (toNatDigits first) c) rest
                  | .error e => .error e)
             else unflattenListLoop res rest) from rfl,
        show listStep res ((first :: r0 :: rrest, value))
          = (if pyIsDigit first
             then
               (if (res.getD (toNatDigits first) .null).isNull
                then .ok (res.set (toNatDigits first)
                  (create_nested_structure (r0 :: rrest) value))
                else
                  match set_nested_value (res.getD (toNatDigits first) .null)
                      (r0 :: rrest) value with
                  | .ok c => .ok (res.set (toNatDigits first) c)
                  | .error e => .error e)
             else .ok res) from rfl]
      by_cases hd : pyIsDigit first = true
      · rw [if_pos hd, if_pos hd]
        by_cases hnull : ((res.getD (toNatDigits first) .null).isNull) = true
        · rw [if_pos hnull, if_pos hnull]
        · rw [if_neg hnull, if_neg hnull]
          cases set_nested_value (res.getD (toNatDigits first) .null)
              (r0 :: rrest) value with
          | ok c => rfl
          | error err => rfl
      · rw [if_neg hd, if_neg hd]

theorem listLoop_append :
    ∀ (a b : List (List PyStr × JValue)) (res : List JValue),
      unflattenListLoop res (a ++ b)
        = match unflattenListLoop res a with
          | .ok r2 => unflattenListLoop r2 b
          | .error e => .error e := by
  intro a
  induction a with
  | nil => intro b res; rfl
  | cons e a ih =>
    intro b res
    obtain ⟨parts, value⟩ := e
    rw [List.cons_append, listLoop_cons, listLoop_cons]
    cases listStep res (parts, value) with
    | ok r2 => exact ih b r2
    | error err => rfl

theorem listLoop_block :
    ∀ (entries : List (List PyStr × JValue)) (res : List JValue) (i : Nat)
      (c : JValue),
      i < res.length → c.isNull = false →
      (∀ e ∈ entries, e.1 ≠ []) →
      unflattenListLoop (res.set i c)
          (entries.map (fun e => (natToDigits i :: e.1, e.2)))
        = match foldSet c entries with
          | .ok c2 => .ok (res.set i c2)
          | .error e => .error e := by
  intro entries
  induction entries with
  | nil => intro res i c _ _ _; rfl
  | cons e rest ih =>
    intro res i c hi hc hne
    obtain ⟨segs, x⟩ := e
    have hsegs : segs ≠ [] := hne (segs, x) (by simp)
    cases segs with
    | nil => exact absurd rfl hsegs
    | cons s0 sr =>
      rw [List.map_cons, listLoop_cons, foldSet_cons]
      have hstep : listStep (res.set i c) (natToDigits i :: s0 :: sr, x)
          = match set_nested_value c (s0 :: sr) x with
            | .ok c2 => .ok (res.set i c2)
            | .error e => .error e := by
        have hgd : ((res.set i c).getD (toNatDigits (natToDigits i)) .null) = c := by
          rw [toNatDigits_natToDigits]
          exact getD_set_self res i c .null hi
        rw [show listStep (res.set i c) (natToDigits i :: s0 :: sr, x)
            = (if pyIsDigit (natToDigits i) then
                (if (((res.set i c).getD (toNatDigits (natToDigits i)) .null).isNull)
                  then .ok ((res.set i c).set (toNatDigits (natToDigits i))
                    (create_nested_structure (s0 :: sr) x))
                  else
                    match set_nested_value
                        ((res.set i c).getD (toNatDigits (natToDigits i)) .null)
                        (s0 :: sr) x with
                    | .ok c2 => .ok ((res.set i c).set (toNatDigits (natToDigits i)) c2)
                    | .error e => .error e)
              else .ok (res.set i c)) from rfl]
        rw [if_pos (pyIsDigit_natToDigits i), hgd, hc]
        rw [if_neg (by simp)]
        rw [toNatDigits_natToDigits]
        cases set_nested_value c (s0 :: sr) x with
        | ok c2 =>
          show Except.ok ((res.set i c).set i c2) = Except.ok (res.set i c2)
          rw [List.set_set]
        | error err => rfl
      rw [hstep]
      cases hin : set_nested_value c (s0 :: sr) x with
      | ok c2 =>
        show unflattenListLoop (res.set i c2)
            (rest.map (fun e => (natToDigits i :: e.1, e.2)))
          = match foldSet c2 rest with
            | .ok c3 => .ok (res.set i c3)
            | .error e => .error e
        exact ih res i c2 hi (snv_not_null (by simp) hc hin)
          (fun e he => hne e (by simp [he]))
      | error err => rfl

/-! ## Parsing the rendered pointers back -/

theorem leafEntriesFields_mem_char :
    ∀ (fields : List (PyStr × JValue)) (e : List PyStr × JValue),
      e ∈ leafEntriesFields fields →
      ∃ kv ∈ fields, (isLeafB kv.2 = true ∧ e = ([kv.1], kv.2)) ∨
        (isLeafB kv.2 = false ∧ ∃ e0 ∈ leafEntries kv.2, e = (kv.1 :: e0.1, e0.2)) := by
  intro fields
  induction fields with
  | nil => intro e he; simp [leafEntriesFields] at he
  | cons kv0 rest ih =>
    obtain ⟨k, v⟩ := kv0
    intro e he
    by_cases hv : isLeafB v = true
    · rw [leafEntriesFields_cons_leaf _ _ hv] at he
      rcases List.mem_cons.mp he with rfl | hmem
      · exact ⟨(k, v), by simp, Or.inl ⟨hv, rfl⟩⟩
      · obtain ⟨kv, hkv, hor⟩ := ih e hmem
        exact ⟨kv, by simp [hkv], hor⟩
    · rw [leafEntriesFields_cons_container _ _ (by simpa using hv)] at he
      rcases List.mem_append.mp he with hmem | hmem
      · obtain ⟨e0, he0, rfl⟩ := List.mem_map.mp hmem
        exact ⟨(k, v), by simp, Or.inr ⟨by simpa using hv, e0, he0, rfl⟩⟩
      · obtain ⟨kv, hkv, hor⟩ := ih e hmem
        exact ⟨kv, by simp [hkv], hor⟩

theorem wfRoot_segs_ne_bad {v : JValue} (h : wfRoot v = true) :
    ∀ e ∈ leafEntries v, e.1 ≠ [[]] := by
  intro e he hbad
  match v with
  | .str s => simp [wfRoot] at h
  | .num n => simp [wfRoot] at h
  | .bool b => simp [wfRoot] at h
  | .null => simp [wfRoot] at h
  | .obj fields =>
    rw [leafEntries_obj] at he
    obtain ⟨_, _, _, hnoempty, _⟩ := wfRoot_obj h
    obtain ⟨kv, hkv, hor⟩ := leafEntriesFields_mem_char fields e he
    rcases hor with ⟨hleaf, rfl⟩ | ⟨hcont, e0, he0, rfl⟩
    · simp only [Prod.mk.injEq] at hbad
      have hk : kv.1 = [] := by
        have := ((List.cons.injEq _ _ _ _).mp hbad).1
        exact this
      have := hnoempty kv hkv hk
      rw [this] at hleaf
      exact absurd hleaf (by simp)
    · have : e0.1 = [] := by
        have := ((List.cons.injEq _ _ _ _).mp hbad).2
        exact this
      exact leafEntries_segs_ne_nil kv.2 e0 he0 this
  | .arr items =>
    rw [leafEntries_arr] at he
    obtain ⟨j, t, h1, _⟩ := leafEntriesItems_head items 0 e he
    rw [h1] at hbad
    have : natToDigits j = [] := ((List.cons.injEq _ _ _ _).mp hbad).1
    exact natToDigits_ne_nil j this

theorem wfRoot_leafEntries_ne_nil {v : JValue} (h : wfRoot v = true) :
    leafEntries v ≠ [] := by
  match v with
  | .str s => simp [wfRoot] at h
  | .num n => simp [wfRoot] at h
  | .bool b => simp [wfRoot] at h
  | .null => simp [wfRoot] at h
  | .obj fields =>
    obtain ⟨hne, _, _, _, hflds⟩ := wfRoot_obj h
    match fields with
    | [] => exact absurd rfl hne
    | kv :: rest =>
      obtain ⟨e, he, _⟩ := leafEntriesFields_head_surj (kv :: rest) hflds kv (by simp)
      rw [leafEntries_obj]
      exact List.ne_nil_of_mem he
  | .arr items =>
    obtain ⟨hne, hitems⟩ := wfRoot_arr h
    obtain ⟨e, he, _⟩ := leafEntriesItems_head_surj items 0 hitems 0 le_rfl
      (by cases items with
          | nil => exact absurd rfl hne
          | cons x rest => simp)
    rw [leafEntries_arr]
    exact List.ne_nil_of_mem he

theorem parsed_rendered {v : JValue} (h : wfRoot v = true) :
    parsedEntries ((leafEntries v).map (renderEntry ['/'])) = leafEntries v := by
  rw [parsedEntries, List.map_map]
  have : ∀ e ∈ leafEntries v,
      ((fun kv : PyStr × JValue => (parse_json_pointer kv.1, kv.2)) ∘ renderEntry ['/']) e
        = e := by
    intro e he
    show (parse_json_pointer (['/'] ++ joinSegments e.1), e.2) = e
    rw [show (['/'] ++ joinSegments e.1 : PyStr) = renderPointer ['/'] e.1 from rfl,
      parse_renderPointer (leafEntries_segs_ne_nil v e he) (wfRoot_segs_ne_bad h e he)]
  rw [List.map_congr_left this]
  simp

/-! ## Root container-type selection -/

theorem filter_length_lt {α : Type} (p : α → Bool) :
    ∀ (l : List α) (a : α), a ∈ l → p a = false →
      (l.filter p).length < l.length := by
  intro l
  induction l with
  | nil => intro a ha _; simp at ha
  | cons x rest ih =>
    intro a ha hpa
    rcases List.mem_cons.mp ha with rfl | hmem
    · rw [List.filter_cons, hpa]
      simp only [Bool.false_eq_true, if_false, List.length_cons]
      have := List.length_filter_le p rest
      omega
    · rw [List.filter_cons]
      by_cases hx : p x = true
      · simp only [hx, if_true, List.length_cons]
        have := ih a hmem hpa
        omega
      · simp only [hx, Bool.false_eq_true, if_false, List.length_cons]
        have := ih a hmem hpa
        omega

theorem rootSegments_mem {entries : List (List PyStr × JValue)} {s : PyStr} :
    s ∈ rootSegments entries ↔ ∃ e ∈ entries, e.1.head? = some s := by
  rw [rootSegments, List.mem_dedup, List.mem_filterMap]

theorem usesListRoot_false_of_nondigit {flat : List (PyStr × JValue)} {s : PyStr}
    (hs : s ∈ rootSegments (parsedEntries flat)) (hd : pyIsDigit s = false) :
    usesListRoot flat = false := by
  rw [usesListRoot]
  have hnodup : (rootSegments (parsedEntries flat)).Nodup := List.nodup_dedup _
  have hlt : (numericSegments (rootSegments (parsedEntries flat))).length
      < (rootSegments (parsedEntries flat)).length := by
    rw [numericSegments]
    calc ((((rootSegments (parsedEntries flat)).filter pyIsDigit).map
            toNatDigits).dedup).length
        ≤ (((rootSegments (parsedEntries flat)).filter pyIsDigit).map
            toNatDigits).length :=
          (List.dedup_sublist _).length_le
      _ = ((rootSegments (parsedEntries flat)).filter pyIsDigit).length :=
          List.length_map _ _
      _ < (rootSegments (parsedEntries flat)).length :=
          filter_length_lt pyIsDigit _ s hs hd
  have : (numericSegments (rootSegments (parsedEntries flat))).length
      ≠ (rootSegments (parsedEntries flat)).length := by omega
  simp [this]

theorem foldl_max_le_all :
    ∀ (l : List Nat) (a : Nat), a ≤ l.foldl Nat.max a ∧
      ∀ x ∈ l, x ≤ l.foldl Nat.max a := by
  intro l
  induction l with
  | nil => intro a; exact ⟨le_rfl, by simp⟩
  | cons y rest ih =>
    intro a
    have h1 := ih (Nat.max a y)
    refine ⟨le_trans (Nat.le_max_left a y) h1.1, ?_⟩
    intro x hx
    rcases List.mem_cons.mp hx with rfl | hmem
    · exact le_trans (Nat.le_max_right a x) h1.1
    · exact h1.2 x hmem

theorem foldl_max_mem :
    ∀ (l : List Nat) (a : Nat), l.foldl Nat.max a = a ∨ l.foldl Nat.max a ∈ l := by
  intro l
  induction l with
  | nil => intro a; exact Or.inl rfl
  | cons y rest ih =>
    intro a
    rcases ih (Nat.max a y) with h | h
    · have hm : a.max y = a ∨ a.max y = y := max_choice a y
      rcases hm with hm | hm
      · exact Or.inl (by rw [show (y :: rest).foldl Nat.max a
          = rest.foldl Nat.max (Nat.max a y) from rfl, h, hm])
      · refine Or.inr ?_
        rw [show (y :: rest).foldl Nat.max a
          = rest.foldl Nat.max (Nat.max a y) from rfl, h, hm]
        simp
    · exact Or.inr (by
        rw [show (y :: rest).foldl Nat.max a
          = rest.foldl Nat.max (Nat.max a y) from rfl]
        simp [h])

theorem foldl_max_eq_of_range {l : List Nat} {m : Nat} (hm : 0 < m)
    (hmem : ∀ j, j ∈ l ↔ j < m) : l.foldl Nat.max 0 = m - 1 := by
  have h1 : m - 1 ≤ l.foldl Nat.max 0 :=
    (foldl_max_le_all l 0).2 (m - 1) ((hmem (m - 1)).mpr (by omega))
  have h2 : l.foldl Nat.max 0 ≤ m - 1 := by
    rcases foldl_max_mem l 0 with h | h
    · omega
    · have := (hmem _).mp h
      omega
  omega

theorem unflatten_eq_dict {flat : List (PyStr × JValue)} (hne : flat ≠ [])
    (hULR : usesListRoot flat = false) :
    unflatten_from_json_pointers flat
      = unflattenDictLoop (.obj []) (parsedEntries flat) := by
  cases flat with
  | nil => exact absurd rfl hne
  | cons f0 frest =>
    rw [show unflatten_from_json_pointers (f0 :: frest)
        = (if usesListRoot (f0 :: frest) then
            match unflattenListLoop
                (List.replicate (rootMaxIndex (f0 :: frest) + 1) .null)
                (parsedEntries (f0 :: frest)) with
            | .ok xs => .ok (.arr xs)
            | .error e => .error e
          else unflattenDictLoop (.obj []) (parsedEntries (f0 :: frest)))
      from rfl, if_neg (by simp [hULR])]

theorem unflatten_eq_list {flat : List (PyStr × JValue)} (hne : flat ≠ [])
    (hULR : usesListRoot flat = true) :
    unflatten_from_json_pointers flat
      = match unflattenListLoop (List.replicate (rootMaxIndex flat + 1) .null)
            (parsedEntries flat) with
        | .ok xs => .ok (.arr xs)
        | .error e => .error e := by
  cases flat with
  | nil => exact absurd rfl hne
  | cons f0 frest =>
    rw [show unflatten_from_json_pointers (f0 :: frest)
        = (if usesListRoot (f0 :: frest) then
            match unflattenListLoop
                (List.replicate (rootMaxIndex (f0 :: frest) + 1) .null)
                (parsedEntries (f0 :: frest)) with
            | .ok xs => .ok (.arr xs)
            | .error e => .error e
          else unflattenDictLoop (.obj []) (parsedEntries (f0 :: frest)))
      from rfl, if_pos hULR]

/-! ## Root reconstruction -/

theorem rootSegments_obj_contains {fields : List (PyStr × JValue)}
    (hflds : wfInnerFields fields = true) {kv : PyStr × JValue} (hkv : kv ∈ fields) :
    kv.1 ∈ rootSegments (leafEntriesFields fields) := by
  obtain ⟨e, he, t, ht⟩ := leafEntriesFields_head_surj fields hflds kv hkv
  exact rootSegments_mem.mpr ⟨e, he, by rw [ht]; rfl⟩

theorem rootSegments_arr_iff {items : List JValue}
    (hitems : wfInnerItems items = true) {s : PyStr} :
    s ∈ rootSegments (leafEntriesItems items 0)
      ↔ ∃ j < items.length, s = natToDigits j := by
  rw [rootSegments_mem]
  constructor
  · rintro ⟨e, he, hh⟩
    obtain ⟨j, t, h1, _, h3⟩ := leafEntriesItems_head items 0 e he
    rw [h1] at hh
    exact ⟨j, by omega, by injection hh with hh2; exact hh2.symm⟩
  · rintro ⟨j, hj, rfl⟩
    obtain ⟨e, he, t, ht⟩ := leafEntriesItems_head_surj items 0 hitems j
      (by omega) (by omega)
    exact ⟨e, he, by rw [ht]; rfl⟩

theorem usesListRoot_true_of_arr {flat : List (PyStr × JValue)} {items : List JValue}
    (hp : parsedEntries flat = leafEntriesItems items 0) (hne : items ≠ [])
    (hitems : wfInnerItems items = true) :
    usesListRoot flat = true ∧ rootMaxIndex flat = items.length - 1 := by
  have hlen : 0 < items.length := by
    cases items with
    | nil => exact absurd rfl hne
    | cons x rest => simp
  have hmem : ∀ s, s ∈ rootSegments (parsedEntries flat)
      ↔ ∃ j < items.length, s = natToDigits j := by
    intro s
    rw [hp]
    exact rootSegments_arr_iff hitems
  have hnodup : (rootSegments (parsedEntries flat)).Nodup := List.nodup_dedup _
  have hfilter : (rootSegments (parsedEntries flat)).filter pyIsDigit
      = rootSegments (parsedEntries flat) := by
    apply List.filter_eq_self.mpr
    intro s hs
    obtain ⟨j, _, rfl⟩ := (hmem s).mp hs
    exact pyIsDigit_natToDigits j
  have hmapnodup : ((rootSegments (parsedEntries flat)).map toNatDigits).Nodup := by
    apply List.Nodup.map_on ?_ hnodup
    intro x hx y hy hxy
    obtain ⟨j1, _, rfl⟩ := (hmem x).mp hx
    obtain ⟨j2, _, rfl⟩ := (hmem y).mp hy
    rw [toNatDigits_natToDigits, toNatDigits_natToDigits] at hxy
    rw [hxy]
  have hns : numericSegments (rootSegments (parsedEntries flat))
      = (rootSegments (parsedEntries flat)).map toNatDigits := by
    rw [numericSegments, hfilter, List.dedup_eq_self.mpr hmapnodup]
  have hrs_ne : rootSegments (parsedEntries flat) ≠ [] := by
    intro hnil
    have := (hmem (natToDigits 0)).mpr ⟨0, hlen, rfl⟩
    rw [hnil] at this
    simp at this
  constructor
  · rw [usesListRoot]
    rw [show (let rs := rootSegments (parsedEntries flat);
        let ns := numericSegments rs;
        !ns.isEmpty && ns.length == rs.length)
      = (!(numericSegments (rootSegments (parsedEntries flat))).isEmpty
          && (numericSegments (rootSegments (parsedEntries flat))).length
            == (rootSegments (parsedEntries flat)).length) from rfl]
    rw [hns]
    cases hrs : rootSegments (parsedEntries flat) with
    | nil => exact absurd hrs hrs_ne
    | cons s0 srest => simp
  · rw [rootMaxIndex, hns]
    apply foldl_max_eq_of_range hlen
    intro j
    rw [List.mem_map]
    constructor
    · rintro ⟨s, hs, rfl⟩
      obtain ⟨j2, hj2, rfl⟩ := (hmem s).mp hs
      rw [toNatDigits_natToDigits]
      exact hj2
    · intro hj
      refine ⟨natToDigits j, (hmem _).mpr ⟨j, hj, rfl⟩, toNatDigits_natToDigits j⟩

theorem overwriteFrom_replicate :
    ∀ (ws pre : List JValue),
      overwriteFrom (pre ++ List.replicate ws.length JValue.null) pre.length ws
        = pre ++ ws := by
  intro ws
  induction ws with
  | nil => intro pre; simp [overwriteFrom]
  | cons w ws ih =>
    intro pre
    rw [show List.replicate (w :: ws).length JValue.null
        = JValue.null :: List.replicate ws.length JValue.null from rfl]
    rw [show overwriteFrom (pre ++ .null :: List.replicate ws.length JValue.null)
          pre.length (w :: ws)
        = overwriteFrom ((pre ++ .null :: List.replicate ws.length JValue.null).set
            pre.length w) (pre.length + 1) ws from rfl]
    rw [set_append_len pre JValue.null (List.replicate ws.length JValue.null) w]
    rw [show pre ++ w :: List.replicate ws.length JValue.null
        = (pre ++ [w]) ++ List.replicate ws.length JValue.null from by simp]
    rw [show pre.length + 1 = (pre ++ [w]).length from by simp]
    rw [ih (pre ++ [w])]
    simp

theorem listLoop_leafItems :
    ∀ (items res : List JValue) (i : Nat),
      wfInnerItems items = true →
      i + items.length ≤ res.length →
      (∀ j, i ≤ j → res.getD j .null = .null) →
      unflattenListLoop res (leafEntriesItems items i)
        = .ok (overwriteFrom res i items) := by
  intro items
  induction items with
  | nil => intro res i _ _ _; rfl
  | cons x rest ih =>
    intro res i hwf hlen hnull
    have hwf2 : wfInner x = true ∧ wfInnerItems rest = true := by
      rw [show wfInnerItems (x :: rest) = (wfInner x && wfInnerItems rest)
        from rfl, Bool.and_eq_true] at hwf
      exact hwf
    have hi : i < res.length := by simp at hlen; omega
    by_cases hx : isLeafB x = true
    · rw [leafEntriesItems_cons_leaf _ _ hx, listLoop_cons]
      have hstep : listStep res ([natToDigits i], x) = .ok (res.set i x) := by
        rw [show listStep res ([natToDigits i], x)
            = (if pyIsDigit (natToDigits i)
               then .ok (res.set (toNatDigits (natToDigits i)) x)
               else .ok res) from rfl,
          if_pos (pyIsDigit_natToDigits i), toNatDigits_natToDigits]
      rw [hstep]
      show unflattenListLoop (res.set i x) (leafEntriesItems rest (i + 1))
        = .ok (overwriteFrom res i (x :: rest))
      rw [ih (res.set i x) (i + 1) hwf2.2
        (by rw [List.length_set]; simp at hlen ⊢; omega)
        (fun j hj => by
          rw [getD_set_ne res i j x .null (by omega)]
          exact hnull j (by omega))]
      rfl
    · have hxf : isLeafB x = false := by simpa using hx
      rw [leafEntriesItems_cons_container _ _ hxf, listLoop_append]
      obtain ⟨r0, rr, x1, restL, hle, hfill⟩ :=
        leafEntries_first_shape x hwf2.1 hxf
      have hrest_ne : ∀ e ∈ restL, e.1 ≠ [] := by
        intro e he
        exact leafEntries_segs_ne_nil x e (by rw [hle]; simp [he])
      have hgood := firstLeaf_good x hwf2.1 hxf (r0 :: rr) x1 restL hle
      have hcreate := create_eq_set_first rr r0 x1 hgood
      rw [hfill] at hcreate
      have hD := foldSet_leafEntries x hwf2.1 hxf
      rw [hle, foldSet_cons, hcreate] at hD
      have hD2 : foldSet (create_nested_structure (r0 :: rr) x1) restL = .ok x := hD
      have hblock : unflattenListLoop res
          (((r0 :: rr, x1) :: restL).map (fun e => (natToDigits i :: e.1, e.2)))
          = .ok (res.set i x) := by
        rw [List.map_cons, listLoop_cons]
        have hstep : listStep res (natToDigits i :: r0 :: rr, x1)
            = .ok (res.set i (create_nested_structure (r0 :: rr) x1)) := by
          rw [show listStep res (natToDigits i :: r0 :: rr, x1)
              = (if pyIsDigit (natToDigits i)
                 then
                   (if (res.getD (toNatDigits (natToDigits i)) .null).isNull
                    then .ok (res.set (toNatDigits (natToDigits i))
                      (create_nested_structure (r0 :: rr) x1))
                    else
                      match set_nested_value
                          (res.getD (toNatDigits (natToDigits i)) .null)
                          (r0 :: rr) x1 with
                      | .ok c => .ok (res.set (toNatDigits (natToDigits i)) c)
                      | .error e => .error e)
                 else .ok res) from rfl,
            if_pos (pyIsDigit_natToDigits i), toNatDigits_natToDigits,
            hnull i le_rfl]
          rw [if_pos (show JValue.isNull .null = true from rfl)]
        rw [hstep]
        show unflattenListLoop (res.set i (create_nested_structure (r0 :: rr) x1))
            (restL.map (fun e => (natToDigits i :: e.1, e.2)))
          = .ok (res.set i x)
        rw [listLoop_block restL res i (create_nested_structure (r0 :: rr) x1)
          hi (create_not_null (r0 :: rr) x1 (by simp)) hrest_ne, hD2]
      rw [← hle] at hblock
      rw [hblock]
      show unflattenListLoop (res.set i x) (leafEntriesItems rest (i + 1))
        = .ok (overwriteFrom res i (x :: rest))
      rw [ih (res.set i x) (i + 1) hwf2.2
        (by rw [List.length_set]; simp at hlen ⊢; omega)
        (fun j hj => by
          rw [getD_set_ne res i j x .null (by omega)]
          exact hnull j (by omega))]
      rfl

theorem unflatten_render_obj {fields : List (PyStr × JValue)}
    (h : wfRoot (.obj fields) = true) :
    unflatten_from_json_pointers
        ((leafEntries (.obj fields)).map (renderEntry ['/']))
      = .ok (.obj fields) := by
  have hlne := wfRoot_leafEntries_ne_nil h
  have hne : (leafEntries (.obj fields)).map (renderEntry ['/']) ≠ [] := by
    intro hnil
    exact hlne (List.map_eq_nil_iff.mp hnil)
  have hp := parsed_rendered h
  obtain ⟨_, hnodup, ⟨kv, hkv, hkd⟩, _, hflds⟩ := wfRoot_obj h
  have hseg : kv.1 ∈ rootSegments
      (parsedEntries ((leafEntries (.obj fields)).map (renderEntry ['/']))) := by
    rw [hp, leafEntries_obj]
    exact rootSegments_obj_contains hflds hkv
  rw [unflatten_eq_dict hne (usesListRoot_false_of_nondigit hseg hkd), hp]
  rw [unflattenDictLoop_eq_foldSet _ _ (leafEntries_segs_ne_nil (.obj fields)),
    leafEntries_obj]
  have := foldSet_fields fields []
    (fun kv _ => foldSet_leafEntries kv.2) hflds (by simpa using hnodup)
  simpa using this

theorem unflatten_render_arr {items : List JValue}
    (h : wfRoot (.arr items) = true) :
    unflatten_from_json_pointers
        ((leafEntries (.arr items)).map (renderEntry ['/']))
      = .ok (.arr items) := by
  obtain ⟨hne0, hitems⟩ := wfRoot_arr h
  have hlen : 0 < items.length := by
    cases items with
    | nil => exact absurd rfl hne0
    | cons x rest => simp
  have hlne := wfRoot_leafEntries_ne_nil h
  have hne : (leafEntries (.arr items)).map (renderEntry ['/']) ≠ [] := by
    intro hnil
    exact hlne (List.map_eq_nil_iff.mp hnil)
  have hp : parsedEntries ((leafEntries (.arr items)).map (renderEntry ['/']))
      = leafEntriesItems items 0 := by
    rw [parsed_rendered h, leafEntries_arr]
  obtain ⟨hULR, hmax⟩ := usesListRoot_true_of_arr hp hne0 hitems
  rw [unflatten_eq_list hne hULR, hmax, hp]
  rw [show items.length - 1 + 1 = items.length from by omega]
  rw [listLoop_leafItems items (List.replicate items.length JValue.null) 0 hitems
    (by simp) (fun j _ => getD_replicate_null _ _)]
  have := overwriteFrom_replicate items []
  simp only [List.nil_append, List.length_nil] at this
  rw [this]

theorem unflatten_flatten_wfRoot {v : JValue} (h : wfRoot v = true) :
    unflatten_from_json_pointers (flatten_to_json_pointers v ['/']) = .ok v := by
  rw [flatten_eq_render_root h]
  match v with
  | .str s => simp [wfRoot] at h
  | .num n => simp [wfRoot] at h
  | .bool b => simp [wfRoot] at h
  | .null => simp [wfRoot] at h
  | .obj fields => exact unflatten_render_obj h
  | .arr items => exact unflatten_render_arr h

/-! ## Shape of successful reconstructions (for the root-type law) -/

theorem listStep_ok_length {res : List JValue} {e : List PyStr × JValue}
    {r : List JValue} (h : listStep res e = .ok r) : r.length = res.length := by
  obtain ⟨parts, value⟩ := e
  cases parts with
  | nil =>
    injection h with h2
    rw [← h2]
  | cons first remaining =>
    by_cases hd : pyIsDigit first = true
    · cases remaining with
      | nil =>
        rw [show listStep res ((first :: [], value))
            = (if pyIsDigit first then .ok (res.set (toNatDigits first) value)
               else .ok res) from rfl, if_pos hd] at h
        injection h with h2
        rw [← h2, List.length_set]
      | cons r0 rrest =>
        rw [show listStep res ((first :: r0 :: rrest, value))
            = (if pyIsDigit first
               then
                 (if (res.getD (toNatDigits first) .null).isNull
                  then .ok (res.set (toNatDigits first)
                    (create_nested_structure (r0 :: rrest) value))
                  else
                    match set_nested_value (res.getD (toNatDigits first) .null)
                        (r0 :: rrest) value with
                    | .ok c => .ok (res.set (toNatDigits first) c)
                    | .error e => .error e)
               else .ok res) from rfl, if_pos hd] at h
        by_cases hnull : ((res.getD (toNatDigits first) .null).isNull) = true
        · rw [if_pos hnull] at h
          injection h with h2
          rw [← h2, List.length_set]
        · rw [if_neg hnull] at h
          cases hsn : set_nested_value (res.getD (toNatDigits first) .null)
              (r0 :: rrest) value with
          | ok c =>
            rw [hsn] at h
            injection h with h2
            rw [← h2, List.length_set]
          | error err =>
            rw [hsn] at h
            exact absurd h (by simp)
    · have hdf : pyIsDigit first = false := by simpa using hd
      cases remaining with
      | nil =>
        rw [show listStep res ((first :: [], value))
            = (if pyIsDigit first then .ok (res.set (toNatDigits first) value)
               else .ok res) from rfl, if_neg (by simp [hdf])] at h
        injection h with h2
        rw [← h2]
      | cons r0 rrest =>
        rw [show listStep res ((first :: r0 :: rrest, value))
            = (if pyIsDigit first
               then
                 (if (res.getD (toNatDigits first) .null).isNull
                  then .ok (res.set (toNatDigits first)
                    (create_nested_structure (r0 :: rrest) value))
                  else
                    match set_nested_value (res.getD (toNatDigits first) .null)
                        (r0 :: rrest) value with
                    | .ok c => .ok (res.set (toNatDigits first) c)
                    | .error e => .error e)
               else .ok res) from rfl, if_neg (by simp [hdf])] at h
        injection h with h2
        rw [← h2]

theorem unflattenListLoop_ok_length :
    ∀ (entries : List (List PyStr × JValue)) (res ys : List JValue),
      unflattenListLoop res entries = .ok ys → ys.length = res.length := by
  intro entries
  induction entries with
  | nil =>
    intro res ys h
    injection h with h2
    rw [h2]
  | cons e rest ih =>
    intro res ys h
    obtain ⟨parts, value⟩ := e
    rw [listLoop_cons] at h
    cases hst : listStep res (parts, value) with
    | ok r2 =>
      rw [hst] at h
      have := ih r2 ys h
      rw [this, listStep_ok_length hst]
    | error err =>
      rw [hst] at h
      exact absurd h (by simp)

theorem listStep_getD_untouched {res : List JValue} {e : List PyStr × JValue}
    {r : List JValue} (h : listStep res e = .ok r) (j : Nat)
    (hj : ∀ s rest, e.1 = s :: rest → pyIsDigit s = true → toNatDigits s ≠ j) :
    r.getD j .null = res.getD j .null := by
  obtain ⟨parts, value⟩ := e
  cases parts with
  | nil =>
    injection h with h2
    rw [← h2]
  | cons first remaining =>
    by_cases hd : pyIsDigit first = true
    · have hne : toNatDigits first ≠ j := hj first remaining rfl hd
      cases remaining with
      | nil =>
        rw [show listStep res ((first :: [], value))
            = (if pyIsDigit first then .ok (res.set (toNatDigits first) value)
               else .ok res) from rfl, if_pos hd] at h
        injection h with h2
        rw [← h2, getD_set_ne res _ j value .null hne]
      | cons r0 rrest =>
        rw [show listStep res ((first :: r0 :: rrest, value))
            = (if pyIsDigit first
               then
                 (if (res.getD (toNatDigits first) .null).isNull
                  then .ok (res.set (toNatDigits first)
                    (create_nested_structure (r0 :: rrest) value))
                  else
                    match set_nested_value (res.getD (toNatDigits first) .null)
                        (r0 :: rrest) value with
                    | .ok c => .ok (res.set (toNatDigits first) c)
                    | .error e => .error e)
               else .ok res) from rfl, if_pos hd] at h
        by_cases hnull : ((res.getD (toNatDigits first) .null).isNull) = true
        · rw [if_pos hnull] at h
          injection h with h2
          rw [← h2, getD_set_ne res _ j _ .null hne]
        · rw [if_neg hnull] at h
          cases hsn : set_nested_value (res.getD (toNatDigits first) .null)
              (r0 :: rrest) value with
          | ok c =>
            rw [hsn] at h
            injection h with h2
            rw [← h2, getD_set_ne res _ j c .null hne]
          | error err =>
            rw [hsn] at h
            exact absurd h (by simp)
    · have hdf : pyIsDigit first = false := by simpa using hd
      cases remaining with
      | nil =>
        rw [show listStep res ((first :: [], value))
            = (if pyIsDigit first then .ok (res.set (toNatDigits first) value)
               else .ok res) from rfl, if_neg (by simp [hdf])] at h
        injection h with h2
        rw [← h2]
      | cons r0 rrest =>
        rw [show listStep res ((first :: r0 :: rrest, value))
            = (if pyIsDigit first
               then
                 (if (res.getD (toNatDigits first) .null).isNull
                  then .ok (res.set (toNatDigits first)
                    (create_nested_structure (r0 :: rrest) value))
                  else
                    match set_nested_value (res.getD (toNatDigits first) .null)
                        (r0 :: rrest) value with
                    | .ok c => .ok (res.set (toNatDigits first) c)
                    | .error e => .error e)
               else .ok res) from rfl, if_neg (by simp [hdf])] at h
        injection h with h2
        rw [← h2]

theorem unflattenListLoop_getD_untouched :
    ∀ (entries : List (List PyStr × JValue)) (res ys : List JValue) (j : Nat),
      unflattenListLoop res entries = .ok ys →
      (∀ e ∈ entries, ∀ s rest, e.1 = s :: rest → pyIsDigit s = true →
        toNatDigits s ≠ j) →
      ys.getD j .null = res.getD j .null := by
  intro entries
  induction entries with
  | nil =>
    intro res ys j h _
    injection h with h2
    rw [h2]
  | cons e rest ih =>
    intro res ys j h hj
    rw [listLoop_cons] at h
    cases hst : listStep res e with
    | ok r2 =>
      rw [hst] at h
      rw [ih r2 ys j h (fun e2 he2 => hj e2 (by simp [he2])),
        listStep_getD_untouched hst j (fun s rest2 => hj e (by simp) s rest2)]
    | error err =>
      rw [hst] at h
      exact absurd h (by simp)

theorem unflattenDictLoop_ok_obj :
    ∀ (entries : List (List PyStr × JValue)) (flds : List (PyStr × JValue))
      (r : JValue),
      (∀ e ∈ entries, e.1 ≠ []) →
      unflattenDictLoop (.obj flds) entries = .ok r →
      ∃ flds2, r = .obj flds2 := by
  intro entries
  induction entries with
  | nil =>
    intro flds r _ h
    injection h with h2
    exact ⟨flds, h2.symm⟩
  | cons e rest ih =>
    intro flds r hne h
    obtain ⟨parts, value⟩ := e
    cases parts with
    | nil => exact absurd rfl (hne ([], value) (by simp))
    | cons p0 prest =>
      rw [show unflattenDictLoop (.obj flds) ((p0 :: prest, value) :: rest)
          = (match set_nested_value (.obj flds) (p0 :: prest) value with
             | .ok acc2 => unflattenDictLoop acc2 rest
             | .error e => .error e) from rfl] at h
      cases hsn : set_nested_value (.obj flds) (p0 :: prest) value with
      | ok acc2 =>
        rw [hsn] at h
        obtain ⟨flds2, rfl⟩ := snv_obj_ok hsn
        exact ih flds2 r (fun e he => hne e (by simp [he])) h
      | error err =>
        rw [hsn] at h
        exact absurd h (by simp)

/-! ## Sequence extension in `_set_nested_value` (for the padding law) -/

theorem snv_arr_extend_leaf (xs : List JValue) (i : Nat) (v : JValue)
    (hlen : xs.length ≤ i) :
    set_nested_value (.arr xs) [natToDigits i] v
      = .ok (.arr (xs ++ List.replicate (i - xs.length) (JValue.arr []) ++ [v])) := by
  rw [snv_arr_leaf_seg v (pyIsDigit_natToDigits i), toNatDigits_natToDigits]
  rw [show i + 1 - xs.length = (i - xs.length) + 1 from by omega,
    List.replicate_succ']
  rw [show xs ++ (List.replicate (i - xs.length) (JValue.arr []) ++ [JValue.arr []])
      = (xs ++ List.replicate (i - xs.length) (JValue.arr [])) ++ [JValue.arr []]
    from by simp]
  have hL : (xs ++ List.replicate (i - xs.length) (JValue.arr [])).length = i := by
    simp
    omega
  set L := xs ++ List.replicate (i - xs.length) (JValue.arr []) with hLdef
  rw [← hL, set_append_len L (JValue.arr []) [] v]

theorem snv_arr_ok_length {xs : List JValue} {first : PyStr} {rest : List PyStr}
    {v : JValue} {ys : List JValue}
    (h : set_nested_value (.arr xs) (first :: rest) v = .ok (.arr ys)) :
    xs.length ≤ ys.length ∧
      (pyIsDigit first = true →
        ys.length = Nat.max xs.length (toNatDigits first + 1)) := by
  by_cases hd : pyIsDigit first = true
  · cases rest with
    | nil =>
      rw [snv_arr_leaf_seg v hd] at h
      injection h with h2
      injection h2 with h3
      rw [← h3, List.length_set]
      constructor
      · simp only [List.length_append, List.length_replicate]
        omega
      · intro
        simp only [List.length_append, List.length_replicate]
        rw [show ∀ a b : Nat, Nat.max a b = if a ≤ b then b else a
          from fun a b => rfl]
        split <;> omega
    | cons r0 rrest =>
      rw [snv_arr_descend rrest v hd] at h
      obtain ⟨c2, _, hr⟩ := except_map_ok h
      injection hr with h3
      rw [h3, List.length_set]
      constructor
      · simp only [List.length_append, List.length_replicate]
        omega
      · intro
        simp only [List.length_append, List.length_replicate]
        rw [show ∀ a b : Nat, Nat.max a b = if a ≤ b then b else a
          from fun a b => rfl]
        split <;> omega
  · rw [snv_arr_nondigit rest v (by simpa using hd)] at h
    injection h with h2
    injection h2 with h3
    rw [← h3]
    exact ⟨le_rfl, fun hdd => absurd hdd (by simp [hd])⟩

/-! ## Permutation invariance of the root-type decision -/

theorem perm_isEmpty {α : Type} {l l2 : List α} (h : l.Perm l2) :
    l.isEmpty = l2.isEmpty := by
  cases l with
  | nil =>
    have h2 : l2 = [] := h.symm.eq_nil
    rw [h2]
  | cons x rest =>
    cases l2 with
    | nil => exact absurd h.eq_nil (by simp)
    | cons y rest2 => rfl

theorem foldl_max_perm {l l2 : List Nat} (h : l.Perm l2) :
    l.foldl Nat.max 0 = l2.foldl Nat.max 0 := by
  have hle : ∀ a b : List Nat, a.Perm b → a.foldl Nat.max 0 ≤ b.foldl Nat.max 0 := by
    intro a b hab
    rcases foldl_max_mem a 0 with h0 | hmem
    · omega
    · exact (foldl_max_le_all b 0).2 _ (hab.mem_iff.mp hmem)
  exact Nat.le_antisymm (hle l l2 h) (hle l2 l h.symm)

theorem perm_rootSegments {flat flat2 : List (PyStr × JValue)}
    (h : flat.Perm flat2) :
    (rootSegments (parsedEntries flat)).Perm (rootSegments (parsedEntries flat2)) := by
  rw [rootSegments, rootSegments]
  exact ((h.map _).filterMap _).dedup

theorem usesListRoot_perm {flat flat2 : List (PyStr × JValue)} (h : flat.Perm flat2) :
    usesListRoot flat = usesListRoot flat2 := by
  have hrs := perm_rootSegments h
  have hns : (numericSegments (rootSegments (parsedEntries flat))).Perm
      (numericSegments (rootSegments (parsedEntries flat2))) := by
    rw [numericSegments, numericSegments]
    exact ((hrs.filter _).map _).dedup
  rw [usesListRoot, usesListRoot]
  rw [show (let rs := rootSegments (parsedEntries flat);
      let ns := numericSegments rs;
      !ns.isEmpty && ns.length == rs.length)
    = (!(numericSegments (rootSegments (parsedEntries flat))).isEmpty
        && (numericSegments (rootSegments (parsedEntries flat))).length
          == (rootSegments (parsedEntries flat)).length) from rfl]
  rw [show (let rs := rootSegments (parsedEntries flat2);
      let ns := numericSegments rs;
      !ns.isEmpty && ns.length == rs.length)
    = (!(numericSegments (rootSegments (parsedEntries flat2))).isEmpty
        && (numericSegments (rootSegments (parsedEntries flat2))).length
          == (rootSegments (parsedEntries flat2)).length) from rfl]
  rw [perm_isEmpty hns, hns.length_eq, hrs.length_eq]

theorem rootMaxIndex_perm {flat flat2 : List (PyStr × JValue)} (h : flat.Perm flat2) :
    rootMaxIndex flat = rootMaxIndex flat2 := by
  rw [rootMaxIndex, rootMaxIndex]
  apply foldl_max_perm
  rw [numericSegments, numericSegments]
  exact (((perm_rootSegments h).filter _).map _).dedup

/-! ## Support for the escaping, malformed-pointer and empty-container laws -/

theorem flatten_single_leaf {k : PyStr} {x : JValue} (hx : isLeafB x = true) :
    flatten_to_json_pointers (.obj [(k, x)]) ['/']
      = [('/' :: escapeSegment k, x)] := by
  rw [show flatten_to_json_pointers (.obj [(k, x)]) ['/']
      = flattenFieldsLoop [(k, x)] ['/'] [] from rfl,
    flattenFieldsLoop_cons_leaf k [] ['/'] [] hx]
  rfl

theorem unflatten_single_escaped {k : PyStr} (x : JValue)
    (hk : '~' ∈ k ∨ '/' ∈ k) :
    unflatten_from_json_pointers [('/' :: escapeSegment k, x)]
      = .ok (.obj [(k, x)]) := by
  have hkne : k ≠ [] := by
    rcases hk with h | h
    · exact List.ne_nil_of_mem h
    · exact List.ne_nil_of_mem h
  have hesc_ne : escapeSegment k ≠ [] :=
    fun h0 => hkne (escapeSegment_eq_nil_iff.mp h0)
  have hparse : parse_json_pointer ('/' :: escapeSegment k) = [k] := by
    cases hesc : escapeSegment k with
    | nil => exact absurd hesc hesc_ne
    | cons c cs =>
      show (splitOnSlash (c :: cs)).map unescapeSegment = [k]
      rw [← hesc, splitOnSlash_of_not_mem (slash_not_mem_escapeSegment k)]
      show [unescapeSegment (escapeSegment k)] = [k]
      rw [unescape_escape]
  have hdigit : pyIsDigit k = false := by
    rcases hk with h | h
    · exact pyIsDigit_false_of_mem h (by decide)
    · exact pyIsDigit_false_of_mem h (by decide)
  have hpe : parsedEntries [('/' :: escapeSegment k, x)] = [([k], x)] := by
    rw [parsedEntries]
    simp [hparse]
  have hULR : usesListRoot [('/' :: escapeSegment k, x)] = false := by
    apply usesListRoot_false_of_nondigit ?_ hdigit
    rw [hpe]
    exact rootSegments_mem.mpr ⟨([k], x), by simp, rfl⟩
  rw [unflatten_eq_dict (by simp) hULR, hpe]
  rw [show unflattenDictLoop (.obj []) [([k], x)]
      = (match set_nested_value (.obj []) [k] x with
         | .ok acc2 => unflattenDictLoop acc2 []
         | .error e => .error e) from rfl, snv_obj_leaf_seg]
  rfl

theorem parse_malformed {k : PyStr} (h : k.head? ≠ some '/') :
    parse_json_pointer k = [] := by
  cases k with
  | nil => rfl
  | cons c rest =>
    have hc : c ≠ '/' := fun hcc => h (by rw [hcc]; rfl)
    simp [parse_json_pointer, hc]

theorem unflatten_malformed_single {k : PyStr} (v : JValue)
    (h : k.head? ≠ some '/') :
    unflatten_from_json_pointers [(k, v)] = .ok v := by
  have hparse := parse_malformed h
  have hpe : parsedEntries [(k, v)] = [([], v)] := by
    rw [parsedEntries]
    simp [hparse]
  have hULR : usesListRoot [(k, v)] = false := by
    rw [show usesListRoot [(k, v)]
        = (!(numericSegments (rootSegments (parsedEntries [(k, v)]))).isEmpty
            && (numericSegments (rootSegments (parsedEntries [(k, v)]))).length
              == (rootSegments (parsedEntries [(k, v)])).length) from rfl, hpe]
    rfl
  rw [unflatten_eq_dict (by simp) hULR, hpe]
  rfl

theorem flattenFieldsLoop_append :
    ∀ (a b : List (PyStr × JValue)) (pp : PyStr) (res : List (PyStr × JValue)),
      flattenFieldsLoop (a ++ b) pp res
        = flattenFieldsLoop b pp (flattenFieldsLoop a pp res) := by
  intro a
  induction a with
  | nil => intro b pp res; rfl
  | cons kv rest ih =>
    intro b pp res
    obtain ⟨k, v⟩ := kv
    by_cases hv : isLeafB v = true
    · rw [List.cons_append, flattenFieldsLoop_cons_leaf k _ pp res hv,
        flattenFieldsLoop_cons_leaf k rest pp res hv, ih]
    · have hvf : isLeafB v = false := by simpa using hv
      rw [List.cons_append, flattenFieldsLoop_cons_container k _ pp res hvf,
        flattenFieldsLoop_cons_container k rest pp res hvf, ih]

theorem flatten_drop_empty_obj (pre post : List (PyStr × JValue)) (k pp : PyStr) :
    flatten_to_json_pointers (.obj (pre ++ (k, .obj []) :: post)) pp
      = flatten_to_json_pointers (.obj (pre ++ post)) pp := by
  rw [show flatten_to_json_pointers (.obj (pre ++ (k, JValue.obj []) :: post)) pp
      = flattenFieldsLoop (pre ++ (k, JValue.obj []) :: post) pp [] from rfl,
    show flatten_to_json_pointers (.obj (pre ++ post)) pp
      = flattenFieldsLoop (pre ++ post) pp [] from rfl,
    flattenFieldsLoop_append, flattenFieldsLoop_append,
    @flattenFieldsLoop_cons_container (JValue.obj []) k post pp _ rfl]
  rw [show flatten_to_json_pointers (.obj []) (pp ++ escapeSegment k ++ ['/'])
      = [] from rfl, dictUpdate_nil_right]

theorem flatten_drop_empty_arr (pre post : List (PyStr × JValue)) (k pp : PyStr) :
    flatten_to_json_pointers (.obj (pre ++ (k, .arr []) :: post)) pp
      = flatten_to_json_pointers (.obj (pre ++ post)) pp := by
  rw [show flatten_to_json_pointers (.obj (pre ++ (k, JValue.arr []) :: post)) pp
      = flattenFieldsLoop (pre ++ (k, JValue.arr []) :: post) pp [] from rfl,
    show flatten_to_json_pointers (.obj (pre ++ post)) pp
      = flattenFieldsLoop (pre ++ post) pp [] from rfl,
    flattenFieldsLoop_append, flattenFieldsLoop_append,
    @flattenFieldsLoop_cons_container (JValue.arr []) k post pp _ rfl]
  rw [show flatten_to_json_pointers (.arr []) (pp ++ escapeSegment k ++ ['/'])
      = [] from rfl, dictUpdate_nil_right]

/-! ## The claims -/

/-- C1, as stated, fails: the mapping with the single key `"0"` has no
empty container at any depth, yet flattening and unflattening it returns
a one-element sequence, not the original mapping (the all-digit key set
makes the root-type inference choose a list). -/
theorem claim_C1_round_trip_counterexample :
    unflatten_from_json_pointers
        (flatten_to_json_pointers (JValue.obj [(['0'], JValue.str ['x'])]) ['/'])
      = .ok (JValue.arr [JValue.str ['x']])
    ∧ JValue.arr [JValue.str ['x']] ≠ JValue.obj [(['0'], JValue.str ['x'])] :=
  ⟨rfl, fun h => JValue.noConfusion h⟩

/-- C1 (amended): the round-trip law
`unflatten_from_json_pointers (flatten_to_json_pointers v "/") = v` holds
for every nested value `v` that is a non-empty container, has non-empty
containers and duplicate-free keys at every depth, whose root mapping (if
any) has at least one non-digit key and no empty-string key bound to a
leaf, and whose nested mappings never start with a digit-string key. -/
theorem claim_C1_round_trip_amended (v : JValue) (h : wfRoot v = true) :
    unflatten_from_json_pointers (flatten_to_json_pointers v ['/']) = .ok v :=
  unflatten_flatten_wfRoot h

/-- Witness for the amended C1 at the mixed users/settings structure. -/
theorem claim_C1_round_trip_witness :
    wfRoot (JValue.obj
      [(['u', 's', 'e', 'r', 's'], JValue.arr
         [JValue.obj [(['n', 'a', 'm', 'e'], JValue.str ['A', 'l', 'i', 'c', 'e']),
                      (['a', 'c', 't', 'i', 'v', 'e'], JValue.bool true)],
          JValue.obj [(['n', 'a', 'm', 'e'], JValue.str ['B', 'o', 'b']),
                      (['a', 'c', 't', 'i', 'v', 'e'], JValue.bool false)]]),
       (['s', 'e', 't', 't', 'i', 'n', 'g', 's'],
         JValue.obj [(['t', 'h', 'e', 'm', 'e'],
           JValue.str ['d', 'a', 'r', 'k'])])]) = true
    ∧ unflatten_from_json_pointers (flatten_to_json_pointers (JValue.obj
      [(['u', 's', 'e', 'r', 's'], JValue.arr
         [JValue.obj [(['n', 'a', 'm', 'e'], JValue.str ['A', 'l', 'i', 'c', 'e']),
                      (['a', 'c', 't', 'i', 'v', 'e'], JValue.bool true)],
          JValue.obj [(['n', 'a', 'm', 'e'], JValue.str ['B', 'o', 'b']),
                      (['a', 'c', 't', 'i', 'v', 'e'], JValue.bool false)]]),
       (['s', 'e', 't', 't', 'i', 'n', 'g', 's'],
         JValue.obj [(['t', 'h', 'e', 'm', 'e'],
           JValue.str ['d', 'a', 'r', 'k'])])]) ['/'])
      = .ok (JValue.obj
      [(['u', 's', 'e', 'r', 's'], JValue.arr
         [JValue.obj [(['n', 'a', 'm', 'e'], JValue.str ['A', 'l', 'i', 'c', 'e']),
                      (['a', 'c', 't', 'i', 'v', 'e'], JValue.bool true)],
          JValue.obj [(['n', 'a', 'm', 'e'], JValue.str ['B', 'o', 'b']),
                      (['a', 'c', 't', 'i', 'v', 'e'], JValue.bool false)]]),
       (['s', 'e', 't', 't', 'i', 'n', 'g', 's'],
         JValue.obj [(['t', 'h', 'e', 'm', 'e'],
           JValue.str ['d', 'a', 'r', 'k'])])]) :=
  ⟨rfl, claim_C1_round_trip_amended _ rfl⟩

/-- C2, as stated, fails on the bare root pointer: the single entry
`("/", "x")` parses to an empty segment list, so not every path has a
digit first segment, yet the result is the bare leaf `"x"`, neither a
sequence nor a mapping. -/
theorem claim_C2_root_type_counterexample :
    unflatten_from_json_pointers [((['/'] : PyStr), JValue.str ['x'])]
      = .ok (JValue.str ['x'])
    ∧ (∀ flds, JValue.str ['x'] ≠ JValue.obj flds)
    ∧ (∀ ys, JValue.str ['x'] ≠ JValue.arr ys) :=
  ⟨rfl, fun _ h => JValue.noConfusion h, fun _ h => JValue.noConfusion h⟩

/-- C2 (amended): on a non-empty flat dict on which
`unflatten_from_json_pointers` returns a value, if the root-type test
chooses a list, the result is a sequence of length `max_index + 1` with
`null` at every index no path's first digit segment denotes; if the test
chooses a dict and every path is non-empty, the result is a mapping.
(A returned dict-branch value can also be a bare leaf, via the empty-path
root-value case, and either branch can raise `TypeError` instead.) -/
theorem claim_C2_root_type_amended (flat : List (PyStr × JValue)) (r : JValue)
    (hne : flat ≠ [])
    (hok : unflatten_from_json_pointers flat = .ok r) :
    (usesListRoot flat = true →
      ∃ ys, r = JValue.arr ys ∧ ys.length = rootMaxIndex flat + 1 ∧
        ∀ j : Nat,
          (∀ p v, (p, v) ∈ flat → ∀ s rest,
            parse_json_pointer p = s :: rest → pyIsDigit s = true →
              toNatDigits s ≠ j) →
          ys.getD j JValue.null = JValue.null)
    ∧ (usesListRoot flat = false →
        (∀ p v, (p, v) ∈ flat → parse_json_pointer p ≠ []) →
        ∃ flds, r = JValue.obj flds) := by
  constructor
  · intro hULR
    cases hloop : unflattenListLoop
        (List.replicate (rootMaxIndex flat + 1) JValue.null)
        (parsedEntries flat) with
    | ok ys =>
      have h2 : unflatten_from_json_pointers flat = .ok (.arr ys) := by
        rw [unflatten_eq_list hne hULR, hloop]
      rw [hok] at h2
      injection h2 with hr
      refine ⟨ys, hr, ?_, ?_⟩
      · rw [unflattenListLoop_ok_length _ _ _ hloop, List.length_replicate]
      · intro j hj
        have huntouched : ∀ e ∈ parsedEntries flat, ∀ s rest, e.1 = s :: rest →
            pyIsDigit s = true → toNatDigits s ≠ j := by
          intro e he s rest he1 hds
          obtain ⟨⟨p, v⟩, hpv, hep⟩ := List.mem_map.mp he
          rw [← hep] at he1
          exact hj p v hpv s rest he1 hds
        rw [unflattenListLoop_getD_untouched _ _ _ j hloop huntouched,
          getD_replicate_null]
    | error err =>
      have h2 : unflatten_from_json_pointers flat = .error err := by
        rw [unflatten_eq_list hne hULR, hloop]
      rw [hok] at h2
      exact absurd h2 (by simp)
  · intro hULR hparse
    rw [unflatten_eq_dict hne hULR] at hok
    refine unflattenDictLoop_ok_obj (parsedEntries flat) [] r ?_ hok
    intro e he
    obtain ⟨⟨p, v⟩, hpv, hep⟩ := List.mem_map.mp he
    rw [← hep]
    exact hparse p v hpv

/-- Witness for the amended C2 at the sparse singleton flat dict. -/
theorem claim_C2_root_type_witness :
    (usesListRoot [(['/', '2'], JValue.str ['c'])] = true →
      ∃ ys, JValue.arr [JValue.null, JValue.null, JValue.str ['c']]
          = JValue.arr ys
        ∧ ys.length = rootMaxIndex [(['/', '2'], JValue.str ['c'])] + 1 ∧
        ∀ j : Nat,
          (∀ p v, (p, v) ∈ [(['/', '2'], JValue.str ['c'])] → ∀ s rest,
            parse_json_pointer p = s :: rest → pyIsDigit s = true →
              toNatDigits s ≠ j) →
          ys.getD j JValue.null = JValue.null)
    ∧ (usesListRoot [(['/', '2'], JValue.str ['c'])] = false →
        (∀ p v, (p, v) ∈ [(['/', '2'], JValue.str ['c'])] →
          parse_json_pointer p ≠ []) →
        ∃ flds, JValue.arr [JValue.null, JValue.null, JValue.str ['c']]
          = JValue.obj flds) :=
  claim_C2_root_type_amended [(['/', '2'], JValue.str ['c'])]
    (JValue.arr [JValue.null, JValue.null, JValue.str ['c']])
    (by simp) rfl

/-- C3, as stated, fails below the root: unflattening the single entry
`("/a/2", "c")` extends the nested list with empty-list placeholders, not
`null`, at the skipped indices 0 and 1. -/
theorem claim_C3_padding_counterexample :
    unflatten_from_json_pointers [(['/', 'a', '/', '2'], JValue.str ['c'])]
      = .ok (JValue.obj [(['a'],
          JValue.arr [JValue.arr [], JValue.arr [], JValue.str ['c']])])
    ∧ JValue.arr [] ≠ JValue.null :=
  ⟨rfl, fun h => JValue.noConfusion h⟩

/-- C3 (amended): the root list is pre-allocated with `null` placeholders,
so unflattening the lone entry `("/2", "c")` gives `[null, null, "c"]`;
below the root, `_set_nested_value` extending a list to a digit segment
for index `i` pads the skipped indices with empty containers (empty lists,
for a leaf assignment), and a successful list extension never shrinks the
list and lands exactly on `max(len, i + 1)` elements. -/
theorem claim_C3_padding_amended :
    unflatten_from_json_pointers [(['/', '2'], JValue.str ['c'])]
      = .ok (JValue.arr [JValue.null, JValue.null, JValue.str ['c']])
    ∧ (∀ (xs : List JValue) (i : Nat) (v : JValue), xs.length ≤ i →
        set_nested_value (JValue.arr xs) [natToDigits i] v
          = .ok (JValue.arr
              (xs ++ List.replicate (i - xs.length) (JValue.arr []) ++ [v])))
    ∧ (∀ (xs ys : List JValue) (first : PyStr) (rest : List PyStr) (v : JValue),
        set_nested_value (JValue.arr xs) (first :: rest) v
            = .ok (JValue.arr ys) →
        xs.length ≤ ys.length ∧
          (pyIsDigit first = true →
            ys.length = Nat.max xs.length (toNatDigits first + 1))) :=
  ⟨rfl, snv_arr_extend_leaf,
    fun _ _ _ _ _ h => snv_arr_ok_length h⟩

/-- Witness for the amended C3: extending the empty list to index 2. -/
theorem claim_C3_padding_witness :
    ([] : List JValue).length ≤ 2
    ∧ set_nested_value (JValue.arr []) [natToDigits 2] (JValue.str ['c'])
        = .ok (JValue.arr
            (([] : List JValue) ++ List.replicate (2 - ([] : List JValue).length)
              (JValue.arr []) ++ [JValue.str ['c']])) :=
  ⟨by decide, claim_C3_padding_amended.2.1 [] 2 (JValue.str ['c']) (by decide)⟩

/-- C4, as stated, fails: swapping the two entries `("/a/0", 1)` and
`("/a/b", 2)` changes the result (one order silently drops the `"b"`
entry into a list, the other builds a nested dict holding both). -/
theorem claim_C4_order_counterexample :
    List.Perm
        [(['/', 'a', '/', '0'], JValue.num 1), (['/', 'a', '/', 'b'], JValue.num 2)]
        [(['/', 'a', '/', 'b'], JValue.num 2), (['/', 'a', '/', '0'], JValue.num 1)]
    ∧ unflatten_from_json_pointers
        [(['/', 'a', '/', '0'], JValue.num 1), (['/', 'a', '/', 'b'], JValue.num 2)]
      = .ok (JValue.obj [(['a'], JValue.arr [JValue.num 1])])
    ∧ unflatten_from_json_pointers
        [(['/', 'a', '/', 'b'], JValue.num 2), (['/', 'a', '/', '0'], JValue.num 1)]
      = .ok (JValue.obj [(['a'],
          JValue.obj [(['b'], JValue.num 2), (['0'], JValue.num 1)])])
    ∧ JValue.obj [(['a'], JValue.arr [JValue.num 1])]
      ≠ JValue.obj [(['a'],
          JValue.obj [(['b'], JValue.num 2), (['0'], JValue.num 1)])] := by
  refine ⟨List.Perm.swap _ _ _, rfl, rfl, ?_⟩
  simp

/-- C4 (amended): what is order independent is the root-shape decision —
the list-vs-dict root test and the maximal root index are invariant under
any permutation of the flat dict's entries (the reconstruction itself is
not). -/
theorem claim_C4_order_amended (flat flat2 : List (PyStr × JValue))
    (h : flat.Perm flat2) :
    usesListRoot flat = usesListRoot flat2
    ∧ rootMaxIndex flat = rootMaxIndex flat2 :=
  ⟨usesListRoot_perm h, rootMaxIndex_perm h⟩

/-- Witness for the amended C4 at a concrete two-entry swap. -/
theorem claim_C4_order_witness :
    usesListRoot [(['/', '0'], JValue.num 1), (['/', 'b'], JValue.num 2)]
      = usesListRoot [(['/', 'b'], JValue.num 2), (['/', '0'], JValue.num 1)]
    ∧ rootMaxIndex [(['/', '0'], JValue.num 1), (['/', 'b'], JValue.num 2)]
      = rootMaxIndex [(['/', 'b'], JValue.num 2), (['/', '0'], JValue.num 1)] :=
  claim_C4_order_amended _ _ (List.Perm.swap _ _ _)

/-- C5: for a key `k` containing `~` or `/` and a leaf `x`, flattening
the single-key mapping yields the lone pointer `/` + escaped key (escaping
`~` to `~0` and then `/` to `~1`), and unflattening that flat dict
recovers exactly the mapping with key `k` and value `x`. -/
theorem claim_C5_escaping (k : PyStr) (x : JValue)
    (hk : '~' ∈ k ∨ '/' ∈ k) (hx : isLeafB x = true) :
    flatten_to_json_pointers (JValue.obj [(k, x)]) ['/']
      = [('/' :: escapeSegment k, x)]
    ∧ unflatten_from_json_pointers
        (flatten_to_json_pointers (JValue.obj [(k, x)]) ['/'])
      = .ok (JValue.obj [(k, x)]) := by
  have h1 := @flatten_single_leaf k x hx
  exact ⟨h1, by rw [h1]; exact unflatten_single_escaped x hk⟩

/-- Witness for C5 at the key `a~/b`. -/
theorem claim_C5_escaping_witness :
    ('~' ∈ (['a', '~', '/', 'b'] : PyStr) ∨ '/' ∈ (['a', '~', '/', 'b'] : PyStr))
    ∧ (flatten_to_json_pointers
          (JValue.obj [((['a', '~', '/', 'b'] : PyStr), JValue.str ['v'])]) ['/']
        = [('/' :: escapeSegment ['a', '~', '/', 'b'], JValue.str ['v'])]
      ∧ unflatten_from_json_pointers
          (flatten_to_json_pointers
            (JValue.obj [((['a', '~', '/', 'b'] : PyStr), JValue.str ['v'])]) ['/'])
        = .ok (JValue.obj [((['a', '~', '/', 'b'] : PyStr), JValue.str ['v'])])) :=
  ⟨Or.inl (by decide),
    claim_C5_escaping ['a', '~', '/', 'b'] (JValue.str ['v'])
      (Or.inl (by decide)) rfl⟩

/-- C6: flattening the mapping with the all-digit-keyed inner mapping
(keys `"0"`, `"1"`) and unflattening turns the inner mapping into a
sequence, exactly as the tie-break rule documents. -/
theorem claim_C6_numeric_key_ambiguity :
    unflatten_from_json_pointers
        (flatten_to_json_pointers
          (JValue.obj [(['i', 't', 'e', 'm', 's'],
            JValue.obj [(['0'], JValue.str ['f', 'i', 'r', 's', 't']),
                        (['1'], JValue.str ['s', 'e', 'c', 'o', 'n', 'd'])])]) ['/'])
      = .ok (JValue.obj [(['i', 't', 'e', 'm', 's'],
          JValue.arr [JValue.str ['f', 'i', 'r', 's', 't'],
                      JValue.str ['s', 'e', 'c', 'o', 'n', 'd']])]) := rfl

/-- C7: unflattening the single bare-root-pointer entry returns the leaf
value itself, not a container. -/
theorem claim_C7_root_leaf_boundary :
    unflatten_from_json_pointers
        [(['/'], JValue.str ['r', 'o', 'o', 't', '_', 'v', 'a', 'l', 'u', 'e'])]
      = .ok (JValue.str ['r', 'o', 'o', 't', '_', 'v', 'a', 'l', 'u', 'e']) := rfl

/-- C8: a pointer key not beginning with `/` (the empty string included)
parses to the empty segment list, and unflattening a flat dict holding
such a key returns its value through the root-value case, raising no
exception. -/
theorem claim_C8_malformed_pointer (k : PyStr) (v : JValue)
    (h : k.head? ≠ some '/') :
    parse_json_pointer k = []
    ∧ unflatten_from_json_pointers [(k, v)] = .ok v :=
  ⟨parse_malformed h, unflatten_malformed_single v h⟩

/-- Witness for C8 at the malformed key `ab`. -/
theorem claim_C8_malformed_witness :
    ((['a', 'b'] : PyStr).head? ≠ some '/')
    ∧ (parse_json_pointer ['a', 'b'] = []
      ∧ unflatten_from_json_pointers [((['a', 'b'] : PyStr), JValue.num 5)]
          = .ok (JValue.num 5)) :=
  ⟨by decide, claim_C8_malformed_pointer ['a', 'b'] (JValue.num 5) (by decide)⟩

/-- C9: empty containers flatten to the empty flat dict under any parent
path, the empty flat dict unflattens to an empty mapping, an empty
container field of a mapping contributes no entries (it can be dropped
without changing the flattening), and an empty container element of a
sequence adds nothing to the accumulated result. -/
theorem claim_C9_empty_containers :
    (∀ pp : PyStr, flatten_to_json_pointers (JValue.obj []) pp = [])
    ∧ (∀ pp : PyStr, flatten_to_json_pointers (JValue.arr []) pp = [])
    ∧ unflatten_from_json_pointers [] = .ok (JValue.obj [])
    ∧ (∀ (pre post : List (PyStr × JValue)) (k pp : PyStr),
        flatten_to_json_pointers (JValue.obj (pre ++ (k, JValue.obj []) :: post)) pp
          = flatten_to_json_pointers (JValue.obj (pre ++ post)) pp)
    ∧ (∀ (pre post : List (PyStr × JValue)) (k pp : PyStr),
        flatten_to_json_pointers (JValue.obj (pre ++ (k, JValue.arr []) :: post)) pp
          = flatten_to_json_pointers (JValue.obj (pre ++ post)) pp)
    ∧ (∀ (rest : List JValue) (i : Nat) (pp : PyStr)
        (res : List (PyStr × JValue)),
        flattenItemsLoop (JValue.obj [] :: rest) i pp res
          = flattenItemsLoop rest (i + 1) pp res)
    ∧ (∀ (rest : List JValue) (i : Nat) (pp : PyStr)
        (res : List (PyStr × JValue)),
        flattenItemsLoop (JValue.arr [] :: rest) i pp res
          = flattenItemsLoop rest (i + 1) pp res) := by
  refine ⟨fun _ => rfl, fun _ => rfl, rfl,
    flatten_drop_empty_obj, flatten_drop_empty_arr, ?_, ?_⟩
  · intro rest i pp res
    rw [show flattenItemsLoop (JValue.obj [] :: rest) i pp res
        = flattenItemsLoop rest (i + 1) pp
            (dictUpdate res (flatten_to_json_pointers (JValue.obj [])
              (pp ++ natToDigits i ++ ['/']))) from rfl,
      show flatten_to_json_pointers (JValue.obj [])
          (pp ++ natToDigits i ++ ['/']) = [] from rfl,
      dictUpdate_nil_right]
  · intro rest i pp res
    rw [show flattenItemsLoop (JValue.arr [] :: rest) i pp res
        = flattenItemsLoop rest (i + 1) pp
            (dictUpdate res (flatten_to_json_pointers (JValue.arr [])
              (pp ++ natToDigits i ++ ['/']))) from rfl,
      show flatten_to_json_pointers (JValue.arr [])
          (pp ++ natToDigits i ++ ['/']) = [] from rfl,
      dictUpdate_nil_right]

/-- Witness for C9 at the root parent path. -/
theorem claim_C9_empty_containers_witness :
    flatten_to_json_pointers (JValue.obj []) ['/'] = [] :=
  claim_C9_empty_containers.1 ['/']

/-- C10: when one pointer path is a proper initial portion of another and
the shorter path's leaf is assigned first, `unflatten_from_json_pointers`
descends into the already-assigned primitive and raises `TypeError`
instead of returning a value. -/
theorem claim_C10_descend_into_leaf_error :
    unflatten_from_json_pointers
        [(['/', 'a'], JValue.num 1), (['/', 'a', '/', 'b'], JValue.num 2)]
      = .error PyErr.typeError := rfl

end MealPlanner
